import Mathlib

/-!
Verification of the olang compiler core against its specification.

The definitions below are a shallow embedding of the compiler's source:
the include preprocessor (`processIncludes` in the driver translation
unit), the AST-builder visitor functions (`ASTVisitor::visit*` in
src/main.cpp), and the LLVM-IR code generator
(`CodeGenContext` in include/codegen.h plus the `*::codegen` methods).
File-system effects are made explicit through a `FileSys` record,
LLVM's mutable module/builder state through a `CodeGenContext` record
threaded by hand.
-/

namespace olang

/-! ## Preprocessor (driver translation unit, `processIncludes` and `main`)

`std::filesystem::canonical` throws when the named file does not exist;
this is modelled by `FileSys.canon` returning `none` and the embedding
returning `PreErr.canonicalThrow`.  `std::ifstream` failing to open an
existing file is modelled by `FileSys.readFile` returning `none`.
Recursion is fuelled; running out of fuel is the distinct error
`PreErr.fuelOut` (real executions that terminate are reproduced by any
sufficiently large fuel). -/

/-- Abstract file system as seen by the preprocessor: canonicalization
(`fs::canonical`, `none` when the path does not exist and the call throws),
file reading keyed by the original (non-canonical) path, parent-directory
extraction and relative-path joining (`fs::path::parent_path`, `operator/`). -/
structure FileSys where
  canon : String → Option String
  readFile : String → Option (List Char)
  parentDir : String → String
  joinPath : String → String → String

/-- Errors escaping the preprocessor: an uncaught
`std::filesystem::filesystem_error` from `fs::canonical`, or fuel
exhaustion (a modelling artifact, never arising for terminating runs). -/
inductive PreErr where
  | canonicalThrow
  | fuelOut
deriving DecidableEq, Repr

/-- The double-quote character, written via its code point. -/
def quoteChar : Char := Char.ofNat 34

/-- The semicolon character. -/
def semiChar : Char := Char.ofNat 59

/-- The literal token `include "` scanned for by the preprocessor. -/
def includePat : List Char := "include ".toList ++ [quoteChar]

/-- Scanning core of `findSub`: try each position in turn, with enough
steps supplied by the caller to cover the whole string. -/
def findSubAux (pat l : List Char) : Nat → Nat → Option Nat
  | 0, _ => none
  | steps + 1, i =>
    if pat.isPrefixOf (l.drop i) then some i
    else findSubAux pat l steps (i + 1)

/-- First index `i ≥ start` at which the non-empty `pat` occurs in `l`
(model of `std::string::find(pat, start)`; `none` is `npos`). -/
def findSub (pat l : List Char) (start : Nat) : Option Nat :=
  if start > l.length then none
  else findSubAux pat l (l.length + 1 - start) start

/-- Result quadruple of a preprocessor call: produced text, updated
already-included set (modelled as a list of canonical paths), the trace of
canonical paths whose contents were actually read and processed, and the
diagnostics printed to standard error. -/
abbrev PreResult := List Char × List String × List String × List String

mutual

/-- Model of `processIncludes(filename, included_files)`: canonicalize
(throwing when the file does not exist), suppress re-inclusion via the
`included_files` set, read the file (diagnostic and empty substitution when
the stream fails to open), then expand the `include "…";` directives of the
content recursively. -/
def processIncludes (fuel : Nat) (fs : FileSys) (filename : String)
    (included : List String) : Except PreErr PreResult :=
  match fuel with
  | 0 => .error .fuelOut
  | fuel + 1 =>
    match fs.canon filename with
    | none => .error .canonicalThrow
    | some cp =>
      if cp ∈ included then .ok ([], included, [], [])
      else
        let included' := cp :: included
        match fs.readFile filename with
        | none => .ok ([], included', [], ["Error: Cannot open file " ++ filename])
        | some content =>
          match processContent fuel fs (fs.parentDir filename) content 0 included' with
          | .error e => .error e
          | .ok (res, inc2, tr, ds) => .ok (res, inc2, cp :: tr, ds)

/-- Model of the directive-scanning loop of `processIncludes`: starting at
`pos`, find the next `include "` token, parse the quoted path, recursively
process the named file, and splice its expansion in place of the directive
up to the terminating semicolon (scanning past the closing quote when no
semicolon exists; the recursive call's effects are kept either way). -/
def processContent (fuel : Nat) (fs : FileSys) (dir : String)
    (content : List Char) (pos : Nat) (included : List String) :
    Except PreErr PreResult :=
  match fuel with
  | 0 => .error .fuelOut
  | fuel + 1 =>
    match findSub includePat content pos with
    | none => .ok (content, included, [], [])
    | some p =>
      let quoteStart := p + 9
      match findSub [quoteChar] content quoteStart with
      | none => .ok (content, included, [], [])
      | some quoteEnd =>
        let includeFile : String := ⟨(content.drop quoteStart).take (quoteEnd - quoteStart)⟩
        let includePath := fs.joinPath dir includeFile
        match processIncludes fuel fs includePath included with
        | .error e => .error e
        | .ok (includedContent, inc1, tr1, ds1) =>
          match findSub [semiChar] content quoteEnd with
          | some semi =>
            match processContent fuel fs dir (content.drop (semi + 1)) 0 inc1 with
            | .error e => .error e
            | .ok (rest, inc2, tr2, ds2) =>
              .ok (content.take p
                    ++ ("// Included from: " ++ includeFile ++ "\n").toList
                    ++ includedContent
                    ++ ("\n// End of: " ++ includeFile ++ "\n").toList
                    ++ rest,
                   inc2, tr1 ++ tr2, ds1 ++ ds2)
          | none =>
            match processContent fuel fs dir content quoteEnd inc1 with
            | .error e => .error e
            | .ok (rest, inc2, tr2, ds2) => .ok (rest, inc2, tr1 ++ tr2, ds1 ++ ds2)

end

/-- Outcome of the front of `main`: `crash` when `processIncludes` lets an
exception escape (the call sits outside the `try` block), `readError` for
the `input.empty()` check (diagnostic and exit code 1, the parser is never
reached), `toParse` when the preprocessed text is handed to the parser. -/
inductive MainOutcome where
  | crash
  | readError
  | toParse (input : List Char)
deriving DecidableEq, Repr

/-- Model of `main` from the preprocessor call to the parser hand-off:
`processIncludes(filename, included_files)` with an empty set, then exit 1
with `Error: Failed to read input file` when the result is empty. -/
def mainFront (fuel : Nat) (fs : FileSys) (filename : String) : MainOutcome :=
  match processIncludes fuel fs filename [] with
  | .error _ => .crash
  | .ok (input, _, _, _) => if input.isEmpty then .readError else .toParse input

/-! ### Concrete file systems used as witnesses -/

/-- A two-file system with a cyclic inclusion: `main.ol` includes
`lib.ol` and `lib.ol` includes `main.ol` back. -/
def fsCycle : FileSys :=
  { canon := fun p => if p = "main.ol" then some "main.ol"
                      else if p = "lib.ol" then some "lib.ol" else none
    readFile := fun p =>
      if p = "main.ol" then
        some ("include ".toList ++ [quoteChar] ++ "lib.ol".toList ++ [quoteChar]
              ++ [semiChar] ++ "A".toList)
      else if p = "lib.ol" then
        some ("include ".toList ++ [quoteChar] ++ "main.ol".toList ++ [quoteChar]
              ++ [semiChar] ++ "B".toList)
      else none
    parentDir := fun _ => ""
    joinPath := fun _ r => r }

/-- A system whose root `main.ol` includes `lib.ol`, a path that does not
exist: `fs::canonical` on it throws. -/
def fsMissing : FileSys :=
  { canon := fun p => if p = "main.ol" then some "main.ol" else none
    readFile := fun p =>
      if p = "main.ol" then
        some ("include ".toList ++ [quoteChar] ++ "lib.ol".toList ++ [quoteChar] ++ [semiChar])
      else none
    parentDir := fun _ => ""
    joinPath := fun _ r => r }

/-- A system whose root `main.ol` includes `lib.ol`, a path that exists
(canonicalization succeeds) but whose stream cannot be opened. -/
def fsUnreadable : FileSys :=
  { canon := fun p => if p = "main.ol" then some "main.ol"
                      else if p = "lib.ol" then some "lib.ol" else none
    readFile := fun p =>
      if p = "main.ol" then
        some ("include ".toList ++ [quoteChar] ++ "lib.ol".toList ++ [quoteChar]
              ++ [semiChar] ++ "A".toList)
      else none
    parentDir := fun _ => ""
    joinPath := fun _ r => r }

/-- A system whose root `main.ol` exists, can be read, and is empty. -/
def fsEmptyRoot : FileSys :=
  { canon := fun p => if p = "main.ol" then some "main.ol" else none
    readFile := fun p => if p = "main.ol" then some [] else none
    parentDir := fun _ => ""
    joinPath := fun _ r => r }

/-! ## AST (include/ast.h)

`FloatLiteral` carries a `double`; floating payloads are kept opaque (an
index into the program's float literals) since no claim computes on them. -/

/-- `BinaryExpr::Op` from include/ast.h. -/
inductive BinOp where
  | ADD | SUB | MUL | DIV | MOD | EQ | NE | LT | GT | LE | GE | AND | OR
deriving DecidableEq, Repr

/-- `UnaryExpr::Op` from include/ast.h. -/
inductive UnOp where
  | NOT | NEG | DEREF | ADDR
deriving DecidableEq, Repr

/-- The expression subtree of the AST node hierarchy of include/ast.h,
one constructor per concrete `Expr` subclass. -/
inductive Expr where
  | intLiteral (value : Int)
  | floatLiteral (value : Nat)
  | stringLiteral (value : String)
  | boolLiteral (value : Bool)
  | identifier (name : String)
  | binaryExpr (op : BinOp) (left right : Expr)
  | assignmentExpr (left right : Expr)
  | unaryExpr (op : UnOp) (operand : Expr)
  | callExpr (function_name : String) (args : List Expr)
  | memberAccess (object : Expr) (member : String)
  | arrayAccess (array : Expr) (index : Expr)
deriving Repr

/-! ## AST builder (src/main.cpp, `ASTVisitor`)

Each `visit*` model receives the parse context reduced to what the source
consults: the already-visited child operands in order, and the chain-wide
token lists reduced to their sizes (`ctx->PLUS()` etc. collect every `+`
token of the whole chain; the source only tests their emptiness). -/

/-- Parse context of an `additive_expr` chain. -/
structure Additive_exprContext where
  operands : List Expr
  plusCount : Nat
  minusCount : Nat

/-- Model of `ASTVisitor::visitAdditive_expr`: with any `+`/`-` token in
the chain, fold the operands into a left-leaning tree; the operator of
each folded node is recomputed per iteration from the chain-wide token
lists as `PLUS().empty() ? SUB : ADD`.  `none` models the out-of-grammar
empty-operand case. -/
def visitAdditive_expr (ctx : Additive_exprContext) : Option Expr :=
  match ctx.operands with
  | [] => none
  | x :: rest =>
    if ctx.plusCount ≠ 0 ∨ ctx.minusCount ≠ 0 then
      some (rest.foldl (fun acc r =>
        .binaryExpr (if ctx.plusCount ≠ 0 then .ADD else .SUB) acc r) x)
    else some x

/-- Parse context of a `relational_expr` chain. -/
structure Relational_exprContext where
  operands : List Expr
  lessCount : Nat
  greaterCount : Nat
  lessEqualCount : Nat
  greaterEqualCount : Nat

/-- Model of `ASTVisitor::visitRelational_expr`: the folded operator is
picked by the fixed if-chain `LESS`, `GREATER`, `LESS_EQUAL`,
`GREATER_EQUAL` over the chain-wide token lists, with `LT` as the
declared default. -/
def visitRelational_expr (ctx : Relational_exprContext) : Option Expr :=
  match ctx.operands with
  | [] => none
  | x :: rest =>
    if ctx.lessCount ≠ 0 ∨ ctx.greaterCount ≠ 0 ∨
       ctx.lessEqualCount ≠ 0 ∨ ctx.greaterEqualCount ≠ 0 then
      some (rest.foldl (fun acc r =>
        .binaryExpr
          (if ctx.lessCount ≠ 0 then .LT
           else if ctx.greaterCount ≠ 0 then .GT
           else if ctx.lessEqualCount ≠ 0 then .LE
           else if ctx.greaterEqualCount ≠ 0 then .GE
           else .LT) acc r) x)
    else some x

/-- Parse context of a `multiplicative_expr` chain. -/
structure Multiplicative_exprContext where
  operands : List Expr
  multiplyCount : Nat
  divideCount : Nat
  moduloCount : Nat

/-- Model of `ASTVisitor::visitMultiplicative_expr`: operator picked by
the fixed if-chain `MULTIPLY`, `DIVIDE`, `MODULO` over the chain-wide
token lists, with `MUL` as the declared default. -/
def visitMultiplicative_expr (ctx : Multiplicative_exprContext) : Option Expr :=
  match ctx.operands with
  | [] => none
  | x :: rest =>
    if ctx.multiplyCount ≠ 0 ∨ ctx.divideCount ≠ 0 ∨ ctx.moduloCount ≠ 0 then
      some (rest.foldl (fun acc r =>
        .binaryExpr
          (if ctx.multiplyCount ≠ 0 then .MUL
           else if ctx.divideCount ≠ 0 then .DIV
           else if ctx.moduloCount ≠ 0 then .MOD
           else .MUL) acc r) x)
    else some x

/-- One child of a `postfix_expr` context after the `primary_expr`:
the terminal tokens the loop dispatches on, `otherTok` for the remaining
terminals (closing brackets and parentheses), `subCtx` for non-terminal
children (the `expression`/`argument_list` subtrees), which the
`dynamic_cast` to a terminal rejects. -/
inductive PostfixChild where
  | lparenTok
  | dotTok
  | identTok (name : String)
  | lbracketTok
  | otherTok
  | subCtx
deriving DecidableEq, Repr

/-- Model of the child-scanning loop of `ASTVisitor::visitPostfix_expr`:
a `(` wraps an identifier node into a call using `argument_list(0)`; a
`.` followed by an identifier token wraps into a member access; a `[`
wraps into an array access whose index is always `expression(0)`, the
first index expression of the whole postfix context; everything else is
skipped. -/
def postfixChildren (argLists : List (List Expr)) (exprs : List Expr) :
    Expr → List PostfixChild → Expr
  | node, [] => node
  | node, .lparenTok :: rest =>
    (match node with
     | .identifier n =>
       postfixChildren argLists exprs
         (.callExpr n (match argLists with | al :: _ => al | [] => [])) rest
     | _ => postfixChildren argLists exprs node rest)
  | node, .dotTok :: .identTok mname :: rest =>
    postfixChildren argLists exprs (.memberAccess node mname) rest
  | node, .dotTok :: rest => postfixChildren argLists exprs node rest
  | node, .lbracketTok :: rest =>
    (match exprs with
     | e0 :: _ => postfixChildren argLists exprs (.arrayAccess node e0) rest
     | [] => postfixChildren argLists exprs node rest)
  | node, .identTok _ :: rest => postfixChildren argLists exprs node rest
  | node, .otherTok :: rest => postfixChildren argLists exprs node rest
  | node, .subCtx :: rest => postfixChildren argLists exprs node rest

/-- Parse context of a `postfix_expr`: the visited primary expression,
the child tokens after it, and the visited `argument_list()` and
`expression()` collections of the whole context. -/
structure Postfix_exprContext where
  primary : Expr
  children : List PostfixChild
  argLists : List (List Expr)
  expressions : List Expr

/-- Model of `ASTVisitor::visitPostfix_expr`. -/
def visitPostfix_expr (ctx : Postfix_exprContext) : Expr :=
  postfixChildren ctx.argLists ctx.expressions ctx.primary ctx.children

/-! ## Types (include/ast.h `Type`, include/codegen.h `getLLVMType`) -/

/-- The `Type` struct of include/ast.h: `kind` is the constructor head,
`element_type` and `array_size` are carried by the pointer/array
constructors, `name` by the struct constructor. -/
inductive Ty where
  | i1 | i8 | i16 | i32 | i64 | f16 | f32 | f64
  | pointer (element_type : Ty)
  | array (array_size : Nat) (element_type : Ty)
  | structT (name : String)
  | void
deriving DecidableEq, Repr

/-- LLVM IR types as produced by `getLLVMType`: integer widths, the three
float widths, the opaque pointer of LLVM 18, arrays, named struct types
with their field types, and void. -/
inductive LLVMType where
  | int (bits : Nat)
  | half
  | float
  | double
  | ptr
  | array (n : Nat) (elem : LLVMType)
  | structT (name : String) (fields : List LLVMType)
  | void
deriving Repr

/-- `llvm::Type::isFloatingPointTy`. -/
def LLVMType.isFloatingPointTy : LLVMType → Bool
  | .half | .float | .double => true
  | _ => false

/-- `llvm::Type::isStructTy`. -/
def LLVMType.isStructTy : LLVMType → Bool
  | .structT _ _ => true
  | _ => false

/-- `llvm::Type::isArrayTy`. -/
def LLVMType.isArrayTy : LLVMType → Bool
  | .array _ _ => true
  | _ => false

/-- `llvm::Type::isVoidTy`. -/
def LLVMType.isVoidTy : LLVMType → Bool
  | .void => true
  | _ => false

/-! ## Values and instructions -/

/-- Abstract `llvm::APFloat` payload: only the zero constant is
distinguished, other literals are opaque. -/
inductive FpVal where
  | zero
  | lit (raw : Nat)
deriving DecidableEq, Repr

/-- An `llvm::Value*`: instruction results and function arguments are
registers tagged with their type and a fresh id; constants carry their
payload; `globalStr` is the pointer produced by `CreateGlobalStringPtr`;
`constAggZero` is `llvm::ConstantAggregateZero`. -/
inductive Val where
  | reg (ty : LLVMType) (id : Nat)
  | constInt (bits : Nat) (value : Int)
  | constFP (bits : Nat) (value : FpVal)
  | globalStr (value : String)
  | constAggZero (ty : LLVMType)
deriving Repr

/-- `llvm::Value::getType`. -/
def Val.getType : Val → LLVMType
  | .reg ty _ => ty
  | .constInt b _ => .int b
  | .constFP b _ => if b = 16 then .half else if b = 32 then .float else .double
  | .globalStr _ => .ptr
  | .constAggZero ty => ty

/-- Signed integer comparison predicates used by the generator. -/
inductive IPred where
  | EQ | NE | SLT | SGT | SLE | SGE
deriving DecidableEq, Repr

/-- Ordered float comparison predicates used by the generator. -/
inductive FPred where
  | OEQ | ONE | OLT | OGT | OLE | OGE
deriving DecidableEq, Repr

/-- Non-terminator instructions emitted by the generator, one constructor
per `IRBuilder` call in the source.  GEP index lists and call arguments
hold `Option Val` because the source passes possibly-null values through
without checking. -/
inductive Instr where
  | add (a b : Val)
  | fadd (a b : Val)
  | sub (a b : Val)
  | fsub (a b : Val)
  | mul (a b : Val)
  | fmul (a b : Val)
  | sdiv (a b : Val)
  | fdiv (a b : Val)
  | srem (a b : Val)
  | icmp (p : IPred) (a b : Val)
  | fcmp (p : FPred) (a b : Val)
  | andB (a b : Val)
  | orB (a b : Val)
  | notB (a : Val)
  | neg (a : Val)
  | fneg (a : Val)
  | load (ty : LLVMType) (src : Val) (nm : String)
  | store (v : Val) (dst : Val)
  | alloca (nm : String) (ty : LLVMType) (id : Nat)
  | gep (baseTy : LLVMType) (base : Val) (idxs : List (Option Val)) (nm : String)
  | structGEP (sty : LLVMType) (base : Val) (idx : Nat) (nm : String)
  | extractValue (v : Val) (idx : Nat) (nm : String)
  | call (fn : String) (args : List (Option Val)) (named : Bool)
deriving Repr

/-- Block terminators. -/
inductive Terminator where
  | retVoid
  | ret (v : Option Val)
  | br (target : Nat)
  | condBr (cond : Option Val) (thenTarget elseTarget : Nat)
deriving Repr

/-- An entry of a basic block's instruction list: LLVM keeps terminators
in the same list as ordinary instructions, and `getTerminator` only looks
at the last entry. -/
inductive BInstr where
  | instr (i : Instr)
  | term (t : Terminator)
deriving Repr

/-- A basic block: its id, its instruction list, and whether it has been
inserted into the function (`BasicBlock::Create` with a parent, or
`insertInto`). -/
structure BB where
  id : Nat
  instrs : List BInstr
  attached : Bool
deriving Repr

/-- Block ids referenced by a terminator (the uses LLVM counts for
`hasNPredecessorsOrMore`). -/
def termTargets : Terminator → List Nat
  | .br t => [t]
  | .condBr _ a b => [a, b]
  | _ => []

/-- Block ids referenced by a block-instruction entry. -/
def bInstrTargets : BInstr → List Nat
  | .term t => termTargets t
  | .instr _ => []

/-- How many times block `m` is referenced from within `bb`. -/
def BB.predWeight (bb : BB) (m : Nat) : Nat :=
  (bb.instrs.map (fun bi => (bInstrTargets bi).count m)).sum

/-! ## Generator state (include/codegen.h `CodeGenContext`) -/

/-- The generator state: created basic blocks, the builder's current
insertion block, the current function's entry block, fresh counters for
block ids and value ids, the two parallel scope stacks (innermost frame
first; the source uses `back()`), the module's function table (name to
return type, as consulted by `CallExpr`), and the struct type table. -/
structure CodeGenContext where
  blocks : List BB
  cur : Nat
  entry : Nat
  nextId : Nat
  fresh : Nat
  alloca_table : List (List (String × (Nat × LLVMType)))
  value_table : List (List (String × Val))
  funcs : List (String × LLVMType)
  llvm_struct_types : List (String × LLVMType)
deriving Repr

/-- `unordered_map` lookup in one scope frame. -/
def tblGet {α : Type} (k : String) : List (String × α) → Option α
  | [] => none
  | (k', v) :: rest => if k' = k then some v else tblGet k rest

/-- `unordered_map::operator[]` assignment: replace or insert. -/
def tblSet {α : Type} (k : String) (v : α) : List (String × α) → List (String × α)
  | [] => [(k, v)]
  | (k', v') :: rest => if k' = k then (k, v) :: rest else (k', v') :: tblSet k v rest

/-- Inside-out search over the scope stack (`rbegin()` to `rend()`). -/
def frameSearch {α : Type} (k : String) : List (List (String × α)) → Option α
  | [] => none
  | f :: rest =>
    match tblGet k f with
    | some v => some v
    | none => frameSearch k rest

namespace CodeGenContext

/-- The fresh state built by the `CodeGenContext` constructor: one empty
frame on each of the two scope stacks. -/
def init : CodeGenContext :=
  { blocks := [], cur := 0, entry := 0, nextId := 0, fresh := 0,
    alloca_table := [[]], value_table := [[]], funcs := [], llvm_struct_types := [] }

/-- `CodeGenContext::enterScope`. -/
def enterScope (s : CodeGenContext) : CodeGenContext :=
  { s with alloca_table := [] :: s.alloca_table, value_table := [] :: s.value_table }

/-- `CodeGenContext::exitScope`. -/
def exitScope (s : CodeGenContext) : CodeGenContext :=
  { s with alloca_table := s.alloca_table.tail, value_table := s.value_table.tail }

/-- `CodeGenContext::getAlloca`: innermost-frame-first search, yielding
the alloca's value id and allocated type. -/
def getAlloca (s : CodeGenContext) (name : String) : Option (Nat × LLVMType) :=
  frameSearch name s.alloca_table

/-- `CodeGenContext::getValue`. -/
def getValue (s : CodeGenContext) (name : String) : Option Val :=
  frameSearch name s.value_table

/-- `CodeGenContext::setValue`: record in the innermost frame. -/
def setValue (s : CodeGenContext) (name : String) (v : Val) : CodeGenContext :=
  { s with value_table :=
      match s.value_table with
      | f :: rest => tblSet name v f :: rest
      | [] => [[(name, v)]] }

/-- `CodeGenContext::getLLVMType`: direct mapping for scalar kinds,
recursion for pointers (opaque in LLVM 18) and arrays, table lookup for
structs (`none` models the `nullptr` returned for unknown structs). -/
def getLLVMType (s : CodeGenContext) : Ty → Option LLVMType
  | .i1 => some (.int 1)
  | .i8 => some (.int 8)
  | .i16 => some (.int 16)
  | .i32 => some (.int 32)
  | .i64 => some (.int 64)
  | .f16 => some .half
  | .f32 => some .float
  | .f64 => some .double
  | .pointer e => (s.getLLVMType e).map (fun _ => .ptr)
  | .array n e => (s.getLLVMType e).map (.array n ·)
  | .structT n => tblGet n s.llvm_struct_types
  | .void => some .void

/-- `BasicBlock::Create`: a fresh block, attached to the function when a
parent is supplied. -/
def newBlock (s : CodeGenContext) (attach : Bool) : Nat × CodeGenContext :=
  (s.nextId,
   { s with blocks := s.blocks ++ [⟨s.nextId, [], attach⟩], nextId := s.nextId + 1 })

/-- Rewrite the instruction list of the block with the given id. -/
def modifyBlock (s : CodeGenContext) (bid : Nat) (f : List BInstr → List BInstr) :
    CodeGenContext :=
  { s with blocks := s.blocks.map fun b => if b.id = bid then { b with instrs := f b.instrs } else b }

/-- Append an entry at the builder's current insertion point. -/
def appendCur (s : CodeGenContext) (bi : BInstr) : CodeGenContext :=
  s.modifyBlock s.cur (· ++ [bi])

/-- `BasicBlock::getTerminator` of the named block: the last entry when it
is a terminator, `nullptr` otherwise (also for instructions emitted after
a terminator, which make `back()` a non-terminator again). -/
def getTerm (s : CodeGenContext) (bid : Nat) : Option Terminator :=
  match s.blocks.find? (fun b => b.id = bid) with
  | some b =>
    match b.instrs.getLast? with
    | some (.term t) => some t
    | _ => none
  | none => none

/-- `IRBuilder::SetInsertPoint`. -/
def setInsertPoint (s : CodeGenContext) (bid : Nat) : CodeGenContext :=
  { s with cur := bid }

/-- `BasicBlock::insertInto(function)`. -/
def attachBlock (s : CodeGenContext) (bid : Nat) : CodeGenContext :=
  { s with blocks := s.blocks.map fun b => if b.id = bid then { b with attached := true } else b }

/-- `delete basic_block` on a block never inserted into the function. -/
def deleteBlock (s : CodeGenContext) (bid : Nat) : CodeGenContext :=
  { s with blocks := s.blocks.filter fun b => b.id ≠ bid }

/-- A fresh register of the given type. -/
def freshVal (s : CodeGenContext) (ty : LLVMType) : Val × CodeGenContext :=
  (.reg ty s.fresh, { s with fresh := s.fresh + 1 })

/-- Emit one instruction at the insertion point and return its result
register. -/
def emit (s : CodeGenContext) (i : Instr) (ty : LLVMType) : Val × CodeGenContext :=
  (appendCur s (.instr i)).freshVal ty

/-- `emit` wrapped for the common `return builder.CreateX(...)` shape. -/
def emitVal (s : CodeGenContext) (i : Instr) (ty : LLVMType) :
    Option Val × CodeGenContext :=
  let (v, s') := s.emit i ty
  (some v, s')

/-- `CodeGenContext::createAlloca`: the alloca instruction is inserted at
the beginning of the current function's entry block (via the temporary
builder) and recorded in the innermost alloca frame. -/
def createAlloca (s : CodeGenContext) (name : String) (ty : LLVMType) :
    Val × CodeGenContext :=
  let aid := s.fresh
  let s1 := s.modifyBlock s.entry (fun l => .instr (.alloca name ty aid) :: l)
  (.reg .ptr aid,
   { s1 with fresh := aid + 1,
             alloca_table :=
               match s1.alloca_table with
               | f :: rest => tblSet name (aid, ty) f :: rest
               | [] => [[(name, (aid, ty))]] })

end CodeGenContext

/-- Number of uses of block `m` across all blocks of the state
(the quantity `hasNPredecessorsOrMore` thresholds). -/
def predCount (s : CodeGenContext) (m : Nat) : Nat :=
  (s.blocks.map (fun bb => bb.predWeight m)).sum

/-- The fixed member-name-to-index table `x`/`y`/`z` used by member access
and member assignment; other names make the generator return null. -/
def memberIndex (mem : String) : Option Nat :=
  if mem = "x" then some 0
  else if mem = "y" then some 1
  else if mem = "z" then some 2
  else none

/-- Number of blocks of the state carrying the id `m`. -/
def countIdBlocks (s : CodeGenContext) (m : Nat) : Nat :=
  s.blocks.countP (fun b => b.id = m)

/-- Weight of a block-id `m` inside an instruction list: how many branch
targets equal `m`. -/
def wInstrs (l : List BInstr) (m : Nat) : Nat :=
  (l.map (fun bi => (bInstrTargets bi).count m)).sum

/-- `predCount` as a function of a block list. -/
def pcList (l : List BB) (m : Nat) : Nat :=
  (l.map (fun bb => bb.predWeight m)).sum

/-- The block list after appending `added` to every block with id `c`
(the shape every expression generator leaves behind). -/
def blocksAppend (l : List BB) (c : Nat) (added : List BInstr) : List BB :=
  l.map fun b => if b.id = c then { b with instrs := b.instrs ++ added } else b

/-- A list of block entries consisting of ordinary instructions only. -/
def instrOnly (added : List BInstr) : Prop :=
  ∀ x ∈ added, ∃ i, x = BInstr.instr i

/-- The effect shape of expression code generation: some instruction-only
entries appended to the insertion block and a bumped value counter;
every other component of the state is untouched. -/
def EffStep (s s' : CodeGenContext) : Prop :=
  ∃ added f', instrOnly added ∧
    s' = { s with blocks := blocksAppend s.blocks s.cur added, fresh := f' }

/-- Every branch target in the state refers to an already-allocated block
id. -/
def targetsClosed (s : CodeGenContext) : Prop :=
  ∀ b ∈ s.blocks, ∀ bi ∈ b.instrs, ∀ t ∈ bInstrTargets bi, t < s.nextId

/-- What one generator step preserves, relative to the baseline block-id
`base` (every id below `base` predates the step): the id counter grows,
the entry block is unchanged, the insertion point either stays or moves
to a block allocated since `base`; pre-existing blocks other than the
entry and insertion blocks survive untouched; every block of the result
either reuses a pre-existing id or a fresh one; predecessor counts and
id multiplicities below `base` are unchanged; and block ids stay below
the id counter. -/
structure StPresFrom (base : Nat) (s s' : CodeGenContext) : Prop where
  nextId_le : s.nextId ≤ s'.nextId
  entry_eq : s'.entry = s.entry
  cur_or : s'.cur = s.cur ∨ base ≤ s'.cur
  cur_lt : s.cur < s.nextId → s'.cur < s'.nextId
  old_blocks : ∀ b ∈ s.blocks, b.id < base → b.id ≠ s.entry → b.id ≠ s.cur → b ∈ s'.blocks
  id_of : ∀ b' ∈ s'.blocks, (∃ b ∈ s.blocks, b.id = b'.id) ∨ base ≤ b'.id
  pred_lo : ∀ m, m < base → predCount s' m = predCount s m
  wf_blocks : (∀ b ∈ s.blocks, b.id < s.nextId) → ∀ b' ∈ s'.blocks, b'.id < s'.nextId
  count_lo : ∀ m, m < base → countIdBlocks s' m = countIdBlocks s m

/-! ## Expression code generation (`*::codegen` methods on expressions) -/

/-- Model of `Identifier::codegen`: load from the alloca found by the
inside-out scope search, or null when no alloca is in scope. -/
def identCodegen (name : String) (s : CodeGenContext) : Option Val × CodeGenContext :=
  match s.getAlloca name with
  | some (aid, aty) => s.emitVal (.load aty (.reg .ptr aid) name) aty
  | none => (none, s)

/-- The extract-value tail shared by the SSA-value and generic paths of
`MemberAccess::codegen`: a struct-typed value is accessed with
`CreateExtractValue` (null for an unknown member name or an out-of-range
field, which is undefined behavior in the source); anything else is null. -/
def extractFromValue (ov? : Option Val) (mem : String) (s : CodeGenContext) :
    Option Val × CodeGenContext :=
  match ov? with
  | some ov =>
    (match ov.getType with
     | .structT _ fields =>
       (match memberIndex mem with
        | some mi =>
          (match fields.get? mi with
           | some mty => s.emitVal (.extractValue ov mi mem) mty
           | none => (none, s))
        | none => (none, s))
     | _ => (none, s))
  | none => (none, s)

/-- The fallthrough of `MemberAccess::codegen` for an identifier object
without a struct-typed alloca: try the parameter SSA value
(`getValue` plus `CreateExtractValue`); otherwise fall to the generic
tail, which re-evaluates the object — here `Identifier::codegen` inlined
— and extracts from its result. -/
def memberIdentFallback (n mem : String) (s : CodeGenContext) :
    Option Val × CodeGenContext :=
  match s.getValue n with
  | some pv =>
    (match pv.getType with
     | .structT _ _ => extractFromValue (some pv) mem s
     | _ =>
       let (ov?, sg) := identCodegen n s
       extractFromValue ov? mem sg)
  | none =>
    let (ov?, sg) := identCodegen n s
    extractFromValue ov? mem sg

/-- The operator dispatch of `BinaryExpr::codegen`, applied after both
operands have been evaluated to non-null values: one `IRBuilder` call per
operator, the float variant chosen from the left operand's type; `%` is
always `CreateSRem`. -/
def binOpEmit (op : BinOp) (lv rv : Val) (s2 : CodeGenContext) :
    Option Val × CodeGenContext :=
  match op with
  | .ADD =>
    if lv.getType.isFloatingPointTy then s2.emitVal (.fadd lv rv) lv.getType
    else s2.emitVal (.add lv rv) lv.getType
  | .SUB =>
    if lv.getType.isFloatingPointTy then s2.emitVal (.fsub lv rv) lv.getType
    else s2.emitVal (.sub lv rv) lv.getType
  | .MUL =>
    if lv.getType.isFloatingPointTy then s2.emitVal (.fmul lv rv) lv.getType
    else s2.emitVal (.mul lv rv) lv.getType
  | .DIV =>
    if lv.getType.isFloatingPointTy then s2.emitVal (.fdiv lv rv) lv.getType
    else s2.emitVal (.sdiv lv rv) lv.getType
  | .MOD => s2.emitVal (.srem lv rv) lv.getType
  | .EQ =>
    if lv.getType.isFloatingPointTy then s2.emitVal (.fcmp .OEQ lv rv) (.int 1)
    else s2.emitVal (.icmp .EQ lv rv) (.int 1)
  | .NE =>
    if lv.getType.isFloatingPointTy then s2.emitVal (.fcmp .ONE lv rv) (.int 1)
    else s2.emitVal (.icmp .NE lv rv) (.int 1)
  | .LT =>
    if lv.getType.isFloatingPointTy then s2.emitVal (.fcmp .OLT lv rv) (.int 1)
    else s2.emitVal (.icmp .SLT lv rv) (.int 1)
  | .GT =>
    if lv.getType.isFloatingPointTy then s2.emitVal (.fcmp .OGT lv rv) (.int 1)
    else s2.emitVal (.icmp .SGT lv rv) (.int 1)
  | .LE =>
    if lv.getType.isFloatingPointTy then s2.emitVal (.fcmp .OLE lv rv) (.int 1)
    else s2.emitVal (.icmp .SLE lv rv) (.int 1)
  | .GE =>
    if lv.getType.isFloatingPointTy then s2.emitVal (.fcmp .OGE lv rv) (.int 1)
    else s2.emitVal (.icmp .SGE lv rv) (.int 1)
  | .AND => s2.emitVal (.andB lv rv) lv.getType
  | .OR => s2.emitVal (.orB lv rv) lv.getType

/-- The `CreateGEP [0, index]` address computation shared by every
array-element access of the generator, with a possibly-null index. -/
def arrayElemPtr (aid asz : Nat) (elemTy : LLVMType) (iv? : Option Val)
    (s : CodeGenContext) : Val × CodeGenContext :=
  s.emit (.gep (.array asz elemTy) (.reg .ptr aid)
    [some (.constInt 32 0), iv?] "arrayidx") .ptr

/-- GEP plus element load: the tail of `ArrayAccess::codegen` once the
alloca and its array type are established and the index is evaluated. -/
def arrayElemLoad (aid asz : Nat) (elemTy : LLVMType) (iv? : Option Val)
    (s : CodeGenContext) : Option Val × CodeGenContext :=
  let (ep, s2) := arrayElemPtr aid asz elemTy iv? s
  s2.emitVal (.load elemTy ep "arrayload") elemTy

/-- `CreateStructGEP` plus member load: the member-read tail of
`MemberAccess::codegen`, shared by the plain-struct and array-element
paths; the fixed `x`/`y`/`z` table yields null for other names, and an
out-of-range field index (undefined behavior in the source) is modelled
as null. -/
def memberStructLoad (sn : String) (fields : List LLVMType) (base : Val)
    (mem : String) (s : CodeGenContext) : Option Val × CodeGenContext :=
  match memberIndex mem with
  | some mi =>
    let (mp, s1) := s.emit (.structGEP (.structT sn fields) base mi mem) .ptr
    (match fields.get? mi with
     | some mty => s1.emitVal (.load mty mp mem) mty
     | none => (none, s1))
  | none => (none, s)

/-- `CreateStructGEP` plus store: the member-write tail of
`AssignmentExpr::codegen`, shared by its two member paths. -/
def memberStructStore (sn : String) (fields : List LLVMType) (base : Val)
    (mem : String) (rv : Val) (s : CodeGenContext) :
    Option Val × CodeGenContext :=
  match memberIndex mem with
  | some mi =>
    let (mp, s1) := s.emit (.structGEP (.structT sn fields) base mi mem) .ptr
    (some rv, s1.appendCur (.instr (.store rv mp)))
  | none => (none, s)

mutual

/-- Model of the expression `codegen` methods.  Returns the produced
`llvm::Value*` (`none` for the source's `nullptr`) and the updated
generator state; every `IRBuilder` call appends to the insertion block. -/
def Expr.codegen : Expr → CodeGenContext → Option Val × CodeGenContext
  | .intLiteral v, s => (some (.constInt 32 v), s)
  | .floatLiteral v, s => (some (.constFP 64 (.lit v)), s)
  | .stringLiteral v, s => (some (.globalStr v), s)
  | .boolLiteral b, s => (some (.constInt 1 (if b then 1 else 0)), s)
  | .identifier name, s => identCodegen name s
  | .binaryExpr op l r, s =>
    let (lv?, s1) := l.codegen s
    let (rv?, s2) := r.codegen s1
    (match lv?, rv? with
     | some lv, some rv => binOpEmit op lv rv s2
     | _, _ => (none, s2))
  | .assignmentExpr (.identifier n) r, s =>
    let (rv?, s1) := r.codegen s
    (match rv? with
     | none => (none, s1)
     | some rv =>
       match s1.getAlloca n with
       | some (aid, _) =>
         (some rv, s1.appendCur (.instr (.store rv (.reg .ptr aid))))
       | none => (none, s1))
  | .assignmentExpr (.arrayAccess (.identifier n) idx) r, s =>
    let (rv?, s1) := r.codegen s
    (match rv? with
     | none => (none, s1)
     | some rv =>
       match s1.getAlloca n with
       | some (aid, aty) =>
         (match aty with
          | .array asz elemTy =>
            let (iv?, s2) := idx.codegen s1
            let (ep, s3) := arrayElemPtr aid asz elemTy iv? s2
            (some rv, s3.appendCur (.instr (.store rv ep)))
          | _ => (none, s1))
       | none => (none, s1))
  | .assignmentExpr (.memberAccess (.identifier n) mem) r, s =>
    let (rv?, s1) := r.codegen s
    (match rv? with
     | none => (none, s1)
     | some rv =>
       match s1.getAlloca n with
       | some (aid, aty) =>
         (match aty with
          | .structT sn fields =>
            memberStructStore sn fields (.reg .ptr aid) mem rv s1
          | _ => (none, s1))
       | none => (none, s1))
  | .assignmentExpr (.memberAccess (.arrayAccess (.identifier n) idx) mem) r, s =>
    let (rv?, s1) := r.codegen s
    (match rv? with
     | none => (none, s1)
     | some rv =>
       match s1.getAlloca n with
       | some (aid, aty) =>
         (match aty with
          | .array asz elemTy =>
            let (iv?, s2) := idx.codegen s1
            let (ep, s3) := arrayElemPtr aid asz elemTy iv? s2
            (match elemTy with
             | .structT sn fields => memberStructStore sn fields ep mem rv s3
             | _ => (none, s3))
          | _ => (none, s1))
       | none => (none, s1))
  | .assignmentExpr _ r, s =>
    let (rv?, s1) := r.codegen s
    (match rv? with
     | none => (none, s1)
     | some _ => (none, s1))
  | .unaryExpr op e, s =>
    let (ov?, s1) := e.codegen s
    (match ov? with
     | none => (none, s1)
     | some ov =>
       match op with
       | .NOT => s1.emitVal (.notB ov) ov.getType
       | .NEG =>
         if ov.getType.isFloatingPointTy then s1.emitVal (.fneg ov) ov.getType
         else s1.emitVal (.neg ov) ov.getType
       | .DEREF => s1.emitVal (.load (.int 32) ov "dereftmp") (.int 32)
       | .ADDR =>
         match e with
         | .identifier n =>
           (match s1.getAlloca n with
            | some (aid, _) => (some (.reg .ptr aid), s1)
            | none => (none, s1))
         | _ => (none, s1))
  | .callExpr fn args, s =>
    (match tblGet fn s.funcs with
     | none => (none, s)
     | some retTy =>
       let (argVals, s1) := Expr.codegenList args s
       if retTy.isVoidTy then s1.emitVal (.call fn argVals false) retTy
       else s1.emitVal (.call fn argVals true) retTy)
  | .memberAccess (.identifier n) mem, s =>
    (match s.getAlloca n with
     | some (aid, aty) =>
       (match aty with
        | .structT sn fields => memberStructLoad sn fields (.reg .ptr aid) mem s
        | _ => memberIdentFallback n mem s)
     | none => memberIdentFallback n mem s)
  | .memberAccess (.arrayAccess (.identifier n) idx) mem, s =>
    (match s.getAlloca n with
     | some (aid, aty) =>
       (match aty with
        | .array asz elemTy =>
          let (iv?, s1) := idx.codegen s
          let (ep, s2) := arrayElemPtr aid asz elemTy iv? s1
          (match elemTy with
           | .structT sn fields => memberStructLoad sn fields ep mem s2
           | _ =>
             -- generic tail: the object is re-evaluated by
             -- `ArrayAccess::codegen`; its scope checks still succeed,
             -- so the index expression runs a second time
             let (iv2?, t1) := idx.codegen s2
             let (ov?, t3) := arrayElemLoad aid asz elemTy iv2? t1
             extractFromValue ov? mem t3)
        | _ =>
          -- generic tail: re-evaluation re-checks the alloca, finds a
          -- non-array type again, and yields null with no effects
          extractFromValue none mem s)
     | none => extractFromValue none mem s)
  | .memberAccess obj mem, s =>
    let (ov?, sg) := Expr.codegen obj s
    extractFromValue ov? mem sg
  | .arrayAccess arr idx, s =>
    (match arr with
     | .identifier n =>
       (match s.getAlloca n with
        | some (aid, aty) =>
          (match aty with
           | .array asz elemTy =>
             let (iv?, s1) := idx.codegen s
             arrayElemLoad aid asz elemTy iv? s1
           | _ => (none, s))
        | none => (none, s))
     | _ => (none, s))

/-- Left-to-right evaluation of `CallExpr` arguments; null results are
pushed into the argument vector unchecked, as in the source. -/
def Expr.codegenList : List Expr → CodeGenContext → List (Option Val) × CodeGenContext
  | [], s => ([], s)
  | e :: rest, s =>
    let (v?, s1) := e.codegen s
    let (vs, s2) := Expr.codegenList rest s1
    (v? :: vs, s2)

end

/-! ## Statement and function code generation -/

/-- The statement subtree of the AST node hierarchy of include/ast.h. -/
inductive Stmt where
  | letStmt (type : Ty) (name : String) (value : Expr)
  | returnStmt (expr : Option Expr)
  | exprStmt (expr : Expr)
  | ifStmt (condition : Expr) (then_body else_body : List Stmt)
  | whileStmt (condition : Expr) (body : List Stmt)
deriving Repr

mutual

/-- Model of the statement `codegen` methods (`LetStmt`, `ReturnStmt`,
`ExprStmt`, `IfStmt`, `WhileStmt`); the returned `llvm::Value*` is always
discarded by callers, so only the state is threaded. -/
def Stmt.codegen : Stmt → CodeGenContext → CodeGenContext
  | .letStmt ty name value, s =>
    (match s.getLLVMType ty with
     | none => s
     | some lty =>
       let (av, s1) := s.createAlloca name lty
       if lty.isStructTy || lty.isArrayTy then
         s1.appendCur (.instr (.store (.constAggZero lty) av))
       else
         let (v?, s2) := value.codegen s1
         match v? with
         | none => s2
         | some v => s2.appendCur (.instr (.store v av)))
  | .returnStmt e?, s =>
    (match e? with
     | some e =>
       let (v?, s1) := e.codegen s
       s1.appendCur (.term (.ret v?))
     | none => s.appendCur (.term .retVoid))
  | .exprStmt e, s => (e.codegen s).2
  | .ifStmt cond thenB elseB, s =>
    let (cv?, s0) := cond.codegen s
    let (thenId, s1) := s0.newBlock true
    let (elseId, s2) := s1.newBlock false
    let (mergeId, s3) := s2.newBlock false
    let s4 := s3.appendCur (.term (.condBr cv? thenId elseId))
    let s5 := (s4.setInsertPoint thenId).enterScope
    let s6 := (Stmt.codegenList thenB s5).exitScope
    let s7 := if (s6.getTerm s6.cur).isNone then s6.appendCur (.term (.br mergeId)) else s6
    let s8 :=
      if elseB.isEmpty then
        ((s7.attachBlock elseId).setInsertPoint elseId).appendCur (.term (.br mergeId))
      else
        let s9 := ((s7.attachBlock elseId).setInsertPoint elseId).enterScope
        let s10 := (Stmt.codegenList elseB s9).exitScope
        if (s10.getTerm s10.cur).isNone then s10.appendCur (.term (.br mergeId)) else s10
    if 1 ≤ predCount s8 mergeId then (s8.attachBlock mergeId).setInsertPoint mergeId
    else s8.deleteBlock mergeId
  | .whileStmt cond body, s =>
    let (condId, s1) := s.newBlock true
    let (bodyId, s2) := s1.newBlock true
    let (endId, s3) := s2.newBlock true
    let s4 := s3.appendCur (.term (.br condId))
    let s5 := s4.setInsertPoint condId
    let (cv?, s6) := cond.codegen s5
    let s7 := s6.appendCur (.term (.condBr cv? bodyId endId))
    let s8 := (s7.setInsertPoint bodyId).enterScope
    let s9 := (Stmt.codegenList body s8).exitScope
    let s10 := if (s9.getTerm s9.cur).isNone then s9.appendCur (.term (.br condId)) else s9
    s10.setInsertPoint endId

/-- The statement loops of `FunctionDecl::codegen`, `IfStmt::codegen` and
`WhileStmt::codegen`: generate statements in order. -/
def Stmt.codegenList : List Stmt → CodeGenContext → CodeGenContext
  | [], s => s
  | st :: rest, s => Stmt.codegenList rest (st.codegen s)

end

/-- The `FunctionDecl` AST node of include/ast.h. -/
structure FunctionDecl where
  name : String
  params : List (Ty × String)
  return_type : Ty
  body : List Stmt
  is_export : Bool

/-- The parameter loop of `FunctionDecl::codegen`: for each parameter in
order, a fresh incoming-argument value, an entry-block alloca recorded in
scope, a store of the argument into it, and the argument also saved as an
SSA value for struct member access. -/
def paramLoop : List (Ty × String) → CodeGenContext → CodeGenContext
  | [], s => s
  | (pty, pname) :: rest, s =>
    match s.getLLVMType pty with
    | none => paramLoop rest s
    | some lty =>
      let (argv, s0) := s.freshVal lty
      let (av, s1) := s0.createAlloca pname lty
      let s2 := s1.appendCur (.instr (.store argv av))
      let s3 := s2.setValue pname argv
      paramLoop rest s3

/-- The front of `FunctionDecl::codegen`, up to and including parameter
recording: register the function in the module, create and enter the
entry block, open the function scope, and run the parameter loop. -/
def FunctionDecl.codegenSetup (fd : FunctionDecl) (s : CodeGenContext) : CodeGenContext :=
  let retLty := (s.getLLVMType fd.return_type).getD .void
  let s0 := { s with funcs := s.funcs ++ [(fd.name, retLty)] }
  let (entryId, s1) := s0.newBlock true
  let s2 := { s1.setInsertPoint entryId with entry := entryId }
  let s3 := s2.enterScope
  paramLoop fd.params s3

/-- The `default_value` switch of `FunctionDecl::codegen`: a zero
constant for `i1`/`i8`/`i16`/`i32`/`i64`/`f32`/`f64`, and `nullptr`
(no synthesized return) for every other kind — `F16`, `POINTER`, `ARRAY`
and `STRUCT` all fall to `default: break`. -/
def defaultReturnValue : Ty → Option Val
  | .i1 => some (.constInt 1 0)
  | .i8 => some (.constInt 8 0)
  | .i16 => some (.constInt 16 0)
  | .i32 => some (.constInt 32 0)
  | .i64 => some (.constInt 64 0)
  | .f32 => some (.constFP 32 .zero)
  | .f64 => some (.constFP 64 .zero)
  | _ => none

/-- Model of `FunctionDecl::codegen`: setup, body, then — when the
insertion block lacks a terminator — the synthesized default return
(`ret void` for void, the zero of the return type when the switch
produces one, nothing otherwise), and finally scope exit. -/
def FunctionDecl.codegen (fd : FunctionDecl) (s : CodeGenContext) : CodeGenContext :=
  let sB := Stmt.codegenList fd.body (fd.codegenSetup s)
  let sR :=
    if (sB.getTerm sB.cur).isNone then
      match fd.return_type with
      | .void => sB.appendCur (.term .retVoid)
      | _ =>
        match defaultReturnValue fd.return_type with
        | some v => sB.appendCur (.term (.ret (some v)))
        | none => sB
    else sB
  sR.exitScope

/-! ### Preprocessor invariants -/

/-- Core invariant of the include machinery, proved for every fuel by
mutual induction: on success the set of included canonical paths only
grows, the trace of canonical paths actually read and processed has no
duplicates, and every processed path was not in the incoming set but is in
the outgoing one. -/
theorem preproc_invariant :
    ∀ fuel : Nat,
      (∀ fs fn inc out inc' tr ds,
        processIncludes fuel fs fn inc = .ok (out, inc', tr, ds) →
        inc ⊆ inc' ∧ tr.Nodup ∧ ∀ p ∈ tr, p ∉ inc ∧ p ∈ inc') ∧
      (∀ fs dir content pos inc out inc' tr ds,
        processContent fuel fs dir content pos inc = .ok (out, inc', tr, ds) →
        inc ⊆ inc' ∧ tr.Nodup ∧ ∀ p ∈ tr, p ∉ inc ∧ p ∈ inc') := by
  intro fuel
  induction fuel with
  | zero =>
    refine ⟨?_, ?_⟩ <;> intro _ _ _ _ _ _ _ h <;> simp [processIncludes, processContent] at *
  | succ n ih =>
    obtain ⟨ihP, ihC⟩ := ih
    refine ⟨?_, ?_⟩
    · intro fs fn inc out inc' tr ds h
      rw [processIncludes] at h
      split at h
      · exact absurd h (by simp)
      · rename_i cp hcanon
        split at h
        · rename_i hmem
          obtain ⟨h1, h2, h3, h4⟩ := by simpa using h
          subst h1; subst h2; subst h3
          simp
        · rename_i hmem
          split at h
          · rename_i hread
            obtain ⟨h1, h2, h3, h4⟩ := by simpa using h
            subst h1; subst h2; subst h3
            simp [List.subset_cons_self]
          · rename_i content hread
            dsimp only at h
            split at h
            · exact absurd h (by simp)
            · rename_i r res inc2 tr0 ds0 hpc
              obtain ⟨h1, h2, h3, h4⟩ := by simpa using h
              subst h1; subst h2; subst h3; subst h4
              obtain ⟨s1, n1, m1⟩ := ihC fs (fs.parentDir fn) content 0 (cp :: inc) res inc2 tr0 ds0 hpc
              refine ⟨fun a ha => s1 (List.mem_cons_of_mem cp ha), ?_, ?_⟩
              · exact List.nodup_cons.2 ⟨fun hc => ((m1 cp hc).1 (List.mem_cons_self cp inc)).elim, n1⟩
              · intro p hp
                rcases List.mem_cons.1 hp with rfl | hp'
                · exact ⟨hmem, s1 (List.mem_cons_self p inc)⟩
                · exact ⟨fun hpi => (m1 p hp').1 (List.mem_cons_of_mem cp hpi), (m1 p hp').2⟩
    · intro fs dir content pos inc out inc' tr ds h
      rw [processContent] at h
      split at h
      · obtain ⟨h1, h2, h3, h4⟩ := by simpa using h
        subst h2; subst h3; subst h4
        simp
      · rename_i p hf1
        dsimp only at h
        split at h
        · obtain ⟨h1, h2, h3, h4⟩ := by simpa using h
          subst h2; subst h3; subst h4
          simp
        · rename_i quoteEnd hf2
          split at h
          · exact absurd h (by simp)
          · rename_i r1 ic inc1 tr1 ds1 hpi
            obtain ⟨si, ni, mi⟩ := ihP fs _ inc ic inc1 tr1 ds1 hpi
            split at h
            · rename_i semi hf3
              split at h
              · exact absurd h (by simp)
              · rename_i r2 rest inc2 tr2 ds2 hrc
                obtain ⟨h1, h2, h3, h4⟩ := by simpa using h
                subst h2; subst h3; subst h4
                obtain ⟨sc, nc, mc⟩ := ihC fs dir (content.drop (semi + 1)) 0 inc1 rest inc2 tr2 ds2 hrc
                refine ⟨fun a ha => sc (si ha), ?_, ?_⟩
                · refine List.Nodup.append ni nc ?_
                  intro a ha1 ha2
                  exact (mc a ha2).1 ((mi a ha1).2)
                · intro q hq
                  rcases List.mem_append.1 hq with hq1 | hq2
                  · exact ⟨(mi q hq1).1, sc ((mi q hq1).2)⟩
                  · exact ⟨fun hqi => (mc q hq2).1 (si hqi), (mc q hq2).2⟩
            · rename_i hf3x
              split at h
              · exact absurd h (by simp)
              · rename_i r2 rest inc2 tr2 ds2 hrc
                obtain ⟨h1, h2, h3, h4⟩ := by simpa using h
                subst h2; subst h3; subst h4
                obtain ⟨sc, nc, mc⟩ := ihC fs dir content quoteEnd inc1 rest inc2 tr2 ds2 hrc
                refine ⟨fun a ha => sc (si ha), ?_, ?_⟩
                · refine List.Nodup.append ni nc ?_
                  intro a ha1 ha2
                  exact (mc a ha2).1 ((mi a ha1).2)
                · intro q hq
                  rcases List.mem_append.1 hq with hq1 | hq2
                  · exact ⟨(mi q hq1).1, sc ((mi q hq1).2)⟩
                  · exact ⟨fun hqi => (mc q hq2).1 (si hqi), (mc q hq2).2⟩

/-! ### Claim C4 -/

/-- C4: for every root path and any nesting of include directives, the
preprocessor processes the contents of each canonical file path at most
once (the trace of processed canonical paths has no duplicates and avoids
every path already marked included), and a second inclusion of an
already-included canonical path — cyclic ones included — substitutes the
empty string and changes nothing. -/
theorem c4_canonical_path_at_most_once :
    (∀ fuel fs fn inc out inc' tr ds,
        processIncludes fuel fs fn inc = .ok (out, inc', tr, ds) →
        tr.Nodup ∧ ∀ p ∈ tr, p ∉ inc) ∧
    (∀ fuel fs fn inc cp, fs.canon fn = some cp → cp ∈ inc →
        processIncludes (fuel + 1) fs fn inc = .ok ([], inc, [], [])) := by
  constructor
  · intro fuel fs fn inc out inc' tr ds h
    obtain ⟨_, hn, hm⟩ := (preproc_invariant fuel).1 fs fn inc out inc' tr ds h
    exact ⟨hn, fun p hp => (hm p hp).1⟩
  · intro fuel fs fn inc cp hcanon hmem
    rw [processIncludes, hcanon]
    dsimp only
    rw [if_pos hmem]

/-- Witness for C4 on the cyclic two-file system: the run processes
`main.ol` then `lib.ol`, each exactly once, and the nested re-inclusion of
`main.ol` from `lib.ol` yields the empty substitution. -/
theorem c4_canonical_path_at_most_once_witness :
    (["main.ol", "lib.ol"] : List String).Nodup ∧
    processIncludes 4 fsCycle "main.ol" ["main.ol"] = .ok ([], ["main.ol"], [], []) := by
  refine ⟨?_, c4_canonical_path_at_most_once.2 3 fsCycle "main.ol" ["main.ol"] "main.ol" rfl (by decide)⟩
  exact (c4_canonical_path_at_most_once.1 10 fsCycle "main.ol" []
    ("// Included from: lib.ol\n// Included from: main.ol\n\n// End of: main.ol\nB\n// End of: lib.ol\nA").toList
    ["lib.ol", "main.ol"] ["main.ol", "lib.ol"] [] rfl).1

/-! ### Claim C5 (corrected) -/

/-- C5 counterexample: an include directive naming a file the preprocessor
cannot open because the path does not exist makes `fs::canonical` throw;
the exception is never caught (the `processIncludes` call in `main` sits
outside the `try` block), so no diagnostic-and-continue happens — the
compilation crashes, refuting the claim as stated. -/
theorem c5_counterexample_missing_include_crashes :
    processIncludes 10 fsMissing "main.ol" [] = .error .canonicalThrow ∧
    mainFront 10 fsMissing "main.ol" = .crash := by
  exact ⟨rfl, rfl⟩

/-- C5 amended: when an include names an *existing* file that cannot be
opened, the preprocessor emits `Error: Cannot open file …` to standard
error, substitutes empty text, and compilation continues; but when the
named file does not exist, `fs::canonical` throws and the uncaught
exception aborts the compilation. -/
theorem c5_unreadable_include_diagnostic_and_continue :
    (∀ fuel fs fn inc cp, fs.canon fn = some cp → cp ∉ inc → fs.readFile fn = none →
        processIncludes (fuel + 1) fs fn inc =
          .ok ([], cp :: inc, [], ["Error: Cannot open file " ++ fn])) ∧
    (∀ fuel fs fn inc, fs.canon fn = none →
        processIncludes (fuel + 1) fs fn inc = .error .canonicalThrow) := by
  constructor
  · intro fuel fs fn inc cp hcanon hmem hread
    rw [processIncludes, hcanon]
    dsimp only
    rw [if_neg hmem, hread]
  · intro fuel fs fn inc hcanon
    rw [processIncludes, hcanon]

/-- Witness for the amended C5: the unreadable-but-existing `lib.ol` gets
the diagnostic and the empty substitution, and the nonexistent `lib.ol` of
`fsMissing` makes the canonicalization throw. -/
theorem c5_unreadable_include_witness :
    processIncludes 4 fsUnreadable "lib.ol" ["main.ol"] =
      .ok ([], ["lib.ol", "main.ol"], [], ["Error: Cannot open file lib.ol"]) ∧
    processIncludes 4 fsMissing "lib.ol" ["main.ol"] = .error .canonicalThrow := by
  exact ⟨c5_unreadable_include_diagnostic_and_continue.1 3 fsUnreadable "lib.ol" ["main.ol"]
          "lib.ol" rfl (by decide) rfl,
        c5_unreadable_include_diagnostic_and_continue.2 3 fsMissing "lib.ol" ["main.ol"] rfl⟩

/-! ### Claim C10 -/

/-- C10: whenever the fully preprocessed input text is empty — in
particular for a readable root source file with empty content — `main`
reports `Error: Failed to read input file` and exits with code 1 before
the parser or the code generator is ever constructed (the `readError`
outcome carries no text to parse). -/
theorem c10_empty_input_exits_before_parsing :
    ∀ fuel fs fn inc' tr ds,
      processIncludes fuel fs fn [] = .ok ([], inc', tr, ds) →
      mainFront fuel fs fn = .readError := by
  intro fuel fs fn inc' tr ds h
  rw [mainFront, h]
  rfl

/-- Witness for C10: the readable-but-empty root of `fsEmptyRoot`
preprocesses to the empty text, and `main` stops with the read error. -/
theorem c10_empty_input_witness :
    mainFront 10 fsEmptyRoot "main.ol" = .readError :=
  c10_empty_input_exits_before_parsing 10 fsEmptyRoot "main.ol" ["main.ol"] ["main.ol"] [] rfl

/-! ### Claim C8 -/

/-- C8: in a same-precedence chain containing two or more distinct
operators, the AST builder folds the whole chain with one single operator
chosen by a fixed priority over the chain-wide token lists — `ADD`
whenever any `+` occurs in an additive chain, `LT` whenever any `<`
occurs in a relational chain, `MUL` whenever any `*` occurs in a
multiplicative chain — instead of the operator written at each position. -/
theorem c8_single_operator_per_chain :
    (∀ (x : Expr) (rest : List Expr) (p m : Nat), 0 < p → 0 < m →
       visitAdditive_expr ⟨x :: rest, p, m⟩ =
         some (rest.foldl (fun acc r => .binaryExpr .ADD acc r) x)) ∧
    (∀ (x : Expr) (rest : List Expr) (l g : Nat), 0 < l → 0 < g →
       visitRelational_expr ⟨x :: rest, l, g, 0, 0⟩ =
         some (rest.foldl (fun acc r => .binaryExpr .LT acc r) x)) ∧
    (∀ (x : Expr) (rest : List Expr) (mu dv : Nat), 0 < mu → 0 < dv →
       visitMultiplicative_expr ⟨x :: rest, mu, dv, 0⟩ =
         some (rest.foldl (fun acc r => .binaryExpr .MUL acc r) x)) := by
  refine ⟨?_, ?_, ?_⟩ <;> intro x rest a b ha hb
  · simp [visitAdditive_expr, ha.ne']
  · simp [visitRelational_expr, ha.ne']
  · simp [visitMultiplicative_expr, ha.ne']

/-- Witness for C8: the chain `a + b - c` (one plus and one minus token)
is folded as `(a + b) + c` — the written `-` becomes `ADD`. -/
theorem c8_single_operator_per_chain_witness :
    visitAdditive_expr ⟨[.identifier "a", .identifier "b", .identifier "c"], 1, 1⟩ =
      some (.binaryExpr .ADD
              (.binaryExpr .ADD (.identifier "a") (.identifier "b"))
              (.identifier "c")) :=
  c8_single_operator_per_chain.1 (.identifier "a") [.identifier "b", .identifier "c"]
    1 1 (by decide) (by decide)

/-! ### Claim C9 -/

/-- C9: the postfix builder consults only the first index expression of
the whole postfix context — replacing the tail of the expression list
never changes the built node — so in a postfix expression with two or
more index suffixes such as `a[i][j]`, every `ArrayAccess` level receives
the first written index `i`. -/
theorem c9_first_index_used_for_all_levels :
    (∀ (argLists : List (List Expr)) (e0 : Expr) (es : List Expr)
       (node : Expr) (children : List PostfixChild),
       postfixChildren argLists (e0 :: es) node children =
         postfixChildren argLists [e0] node children) ∧
    (∀ (a i j : Expr),
       visitPostfix_expr ⟨a, [.lbracketTok, .subCtx, .otherTok,
                              .lbracketTok, .subCtx, .otherTok], [], [i, j]⟩ =
         .arrayAccess (.arrayAccess a i) i) := by
  constructor
  · intro argLists e0 es node children
    suffices h : ∀ n (children : List PostfixChild), children.length ≤ n → ∀ node,
        postfixChildren argLists (e0 :: es) node children =
          postfixChildren argLists [e0] node children by
      exact h children.length children le_rfl node
    intro n
    induction n with
    | zero =>
      intro children hc node
      rw [List.length_eq_zero.1 (Nat.le_zero.1 hc)]
      rfl
    | succ k ih =>
      intro children hc node
      cases children with
      | nil => rfl
      | cons c rest =>
        have hr : rest.length ≤ k := by simpa using hc
        cases c with
        | lparenTok => cases node <;> simp only [postfixChildren] <;> exact ih rest hr _
        | dotTok =>
          cases rest with
          | nil => simp only [postfixChildren]
          | cons c2 r2 =>
            have hr2 : r2.length ≤ k := le_trans (by simp) hr
            cases c2 <;> simp only [postfixChildren] <;> first
              | exact ih r2 hr2 _
              | exact ih (_ :: r2) hr _
        | identTok nm => simp only [postfixChildren]; exact ih rest hr _
        | lbracketTok => simp only [postfixChildren]; exact ih rest hr _
        | otherTok => simp only [postfixChildren]; exact ih rest hr _
        | subCtx => simp only [postfixChildren]; exact ih rest hr _
  · intro a i j
    rfl

/-! ### Block-surgery lemmas -/

theorem blocksAppend_nil (l : List BB) (c : Nat) : blocksAppend l c [] = l := by
  have hb : ∀ b : BB,
      (if b.id = c then { b with instrs := b.instrs ++ [] } else b) = b := by
    intro b
    cases b
    simp
  simp [blocksAppend, hb]

theorem blocksAppend_cons (b : BB) (rest : List BB) (c : Nat) (added : List BInstr) :
    blocksAppend (b :: rest) c added =
      (if b.id = c then { b with instrs := b.instrs ++ added } else b) ::
        blocksAppend rest c added := rfl

theorem blocksAppend_append (l : List BB) (c : Nat) (a b : List BInstr) :
    blocksAppend (blocksAppend l c a) c b = blocksAppend l c (a ++ b) := by
  induction l with
  | nil => rfl
  | cons x rest ih =>
    rw [blocksAppend_cons, blocksAppend_cons, blocksAppend_cons]
    by_cases h : x.id = c
    · simp [h, ih, List.append_assoc]
    · simp [h, ih]

theorem mem_blocksAppend_of_ne {b : BB} {l : List BB} {c : Nat} {added : List BInstr}
    (hb : b ∈ l) (hne : b.id ≠ c) : b ∈ blocksAppend l c added := by
  have h3 := List.mem_map_of_mem
    (fun b : BB => if b.id = c then { b with instrs := b.instrs ++ added } else b) hb
  dsimp only at h3
  rw [if_neg hne] at h3
  exact h3

theorem wInstrs_nil (m : Nat) : wInstrs [] m = 0 := rfl

theorem wInstrs_cons (x : BInstr) (l : List BInstr) (m : Nat) :
    wInstrs (x :: l) m = (bInstrTargets x).count m + wInstrs l m := by
  simp [wInstrs]

theorem wInstrs_append (l1 l2 : List BInstr) (m : Nat) :
    wInstrs (l1 ++ l2) m = wInstrs l1 m + wInstrs l2 m := by
  simp [wInstrs]

theorem wInstrs_instrOnly {added : List BInstr} (h : instrOnly added) (m : Nat) :
    wInstrs added m = 0 := by
  induction added with
  | nil => rfl
  | cons x rest ih =>
    obtain ⟨i, rfl⟩ := h x (by simp)
    rw [wInstrs_cons, ih fun y hy => h y (by simp [hy])]
    rfl

theorem pcList_nil (m : Nat) : pcList [] m = 0 := rfl

theorem pcList_cons (b : BB) (rest : List BB) (m : Nat) :
    pcList (b :: rest) m = b.predWeight m + pcList rest m := by
  simp [pcList]

theorem pcList_append (l1 l2 : List BB) (m : Nat) :
    pcList (l1 ++ l2) m = pcList l1 m + pcList l2 m := by
  simp [pcList]

theorem predWeight_mk (i : Nat) (l : List BInstr) (a : Bool) (m : Nat) :
    (BB.mk i l a).predWeight m = wInstrs l m := rfl

theorem predWeight_eq_wInstrs (b : BB) (m : Nat) : b.predWeight m = wInstrs b.instrs m := rfl

theorem pcList_blocksAppend (l : List BB) (c : Nat) (added : List BInstr) (m : Nat) :
    pcList (blocksAppend l c added) m =
      pcList l m + (l.countP (fun b => b.id = c)) * wInstrs added m := by
  induction l with
  | nil => simp [pcList, blocksAppend]
  | cons b rest ih =>
    rw [blocksAppend_cons]
    by_cases h : b.id = c
    · rw [if_pos h, pcList_cons, pcList_cons, ih, List.countP_cons]
      have hw : ({ b with instrs := b.instrs ++ added } : BB).predWeight m =
          b.predWeight m + wInstrs added m := by
        rw [predWeight_eq_wInstrs, predWeight_eq_wInstrs]
        exact wInstrs_append _ _ _
      rw [hw]
      simp only [h, decide_true_eq_true, decide_eq_true_eq, if_pos trivial]
      ring
    · rw [if_neg h, pcList_cons, pcList_cons, ih, List.countP_cons]
      simp only [decide_eq_true_eq, if_neg h]
      ring

theorem predCount_eq_pcList (s : CodeGenContext) (m : Nat) :
    predCount s m = pcList s.blocks m := rfl

theorem countP_map_id_preserving (l : List BB) (f : BB → BB)
    (hf : ∀ b, (f b).id = b.id) (m : Nat) :
    (l.map f).countP (fun b => b.id = m) = l.countP (fun b => b.id = m) := by
  induction l with
  | nil => rfl
  | cons b rest ih => simp [List.countP_cons, ih, hf]

/-! ### Effect-step lemmas for expression generation -/

theorem effStep_refl {s : CodeGenContext} : EffStep s s := by
  refine ⟨[], s.fresh, fun x hx => absurd hx (by simp), ?_⟩
  rw [blocksAppend_nil]

theorem effStep_spec {s s' : CodeGenContext} (h : EffStep s s') :
    s'.cur = s.cur ∧ s'.entry = s.entry ∧ s'.nextId = s.nextId ∧
    s'.alloca_table = s.alloca_table ∧ s'.value_table = s.value_table ∧
    s'.funcs = s.funcs ∧ s'.llvm_struct_types = s.llvm_struct_types := by
  obtain ⟨added, f', _, rfl⟩ := h
  exact ⟨rfl, rfl, rfl, rfl, rfl, rfl, rfl⟩

theorem effStep_trans {s t u : CodeGenContext} (h1 : EffStep s t) (h2 : EffStep t u) :
    EffStep s u := by
  obtain ⟨a1, f1, ho1, rfl⟩ := h1
  obtain ⟨a2, f2, ho2, h⟩ := h2
  refine ⟨a1 ++ a2, f2, ?_, ?_⟩
  · intro x hx
    rcases List.mem_append.1 hx with hx | hx
    · exact ho1 x hx
    · exact ho2 x hx
  · rw [h]
    simp only []
    rw [blocksAppend_append]

theorem effStep_appendInstr {s : CodeGenContext} {i : Instr} :
    EffStep s (s.appendCur (.instr i)) :=
  ⟨[.instr i], s.fresh, fun x hx => by simp at hx; exact ⟨i, hx⟩, rfl⟩

theorem effStep_emit {s : CodeGenContext} {i : Instr} {ty : LLVMType} :
    EffStep s (s.emit i ty).2 :=
  ⟨[.instr i], s.fresh + 1, fun x hx => by simp at hx; exact ⟨i, hx⟩, rfl⟩

theorem effStep_emitVal {s : CodeGenContext} {i : Instr} {ty : LLVMType} :
    EffStep s (s.emitVal i ty).2 :=
  ⟨[.instr i], s.fresh + 1, fun x hx => by simp at hx; exact ⟨i, hx⟩, rfl⟩

theorem effStep_emit_eq {s s1 : CodeGenContext} {v : Val} {i : Instr} {ty : LLVMType}
    (h : s.emit i ty = (v, s1)) : EffStep s s1 := by
  have h2 := @effStep_emit s i ty
  rw [h] at h2
  exact h2

theorem effStep_emitVal_eq {s s1 : CodeGenContext} {v : Option Val} {i : Instr}
    {ty : LLVMType} (h : s.emitVal i ty = (v, s1)) : EffStep s s1 := by
  have h2 := @effStep_emitVal s i ty
  rw [h] at h2
  exact h2

theorem effStep_identCodegen (n : String) (s : CodeGenContext) :
    EffStep s (identCodegen n s).2 := by
  unfold identCodegen
  cases s.getAlloca n with
  | some p => obtain ⟨aid, aty⟩ := p; exact effStep_emitVal
  | none => exact effStep_refl

theorem effStep_extractFromValue (ov? : Option Val) (mem : String) (s : CodeGenContext) :
    EffStep s (extractFromValue ov? mem s).2 := by
  unfold extractFromValue
  repeat' split
  all_goals first
    | exact effStep_refl
    | exact effStep_emitVal

theorem effStep_memberIdentFallback (n mem : String) (s : CodeGenContext) :
    EffStep s (memberIdentFallback n mem s).2 := by
  unfold memberIdentFallback
  repeat' split
  all_goals first
    | exact effStep_extractFromValue _ mem s
    | (rename_i ov sg hid
       have h := effStep_identCodegen n s
       rw [hid] at h
       exact effStep_trans h (effStep_extractFromValue ov mem sg))

/-- Effect shape of the identifier-object branch of
`MemberAccess::codegen`. -/
theorem memberIdentEff (n mem : String) (s : CodeGenContext) :
    EffStep s (Expr.codegen (.memberAccess (.identifier n) mem) s).2 := by
  show EffStep s
    ((match s.getAlloca n with
      | some (aid, aty) =>
        (match aty with
         | .structT sn fields =>
           (match memberIndex mem with
            | some mi =>
              let (mp, s1) := s.emit
                (.structGEP (.structT sn fields) (.reg .ptr aid) mi mem) .ptr
              (match fields.get? mi with
               | some mty => s1.emitVal (.load mty mp mem) mty
               | none => (none, s1))
            | none => (none, s))
         | _ => memberIdentFallback n mem s)
      | none => memberIdentFallback n mem s : Option Val × CodeGenContext)).2
  cases s.getAlloca n with
  | none => exact effStep_memberIdentFallback n mem s
  | some p =>
    obtain ⟨aid, aty⟩ := p
    try dsimp only
    cases aty <;> try exact effStep_memberIdentFallback n mem s
    rename_i sn fields
    try dsimp only
    cases memberIndex mem with
    | none => exact effStep_refl
    | some mi =>
      try dsimp only
      cases fields.get? mi with
      | none =>
        try dsimp only
        exact effStep_emit
      | some mty =>
        try dsimp only
        exact effStep_trans effStep_emit effStep_emitVal

theorem effStep_codegen_eq {e : Expr} {s s1 : CodeGenContext} {v : Option Val}
    (H : ∀ st, EffStep st (Expr.codegen e st).2)
    (h : Expr.codegen e s = (v, s1)) : EffStep s s1 := by
  have h2 := H s
  rw [h] at h2
  exact h2

/-- Effect shape of the generic tail of `MemberAccess::codegen`, given
the effect shape of the re-evaluated object. -/
theorem memberGenericStep (obj : Expr) (mem : String) (s : CodeGenContext)
    (H : ∀ st, EffStep st (Expr.codegen obj st).2) :
    EffStep s ((match Expr.codegen obj s with
      | (ov?, sg) => extractFromValue ov? mem sg : Option Val × CodeGenContext)).2 := by
  split
  rename_i ov sg hoEq
  exact effStep_trans (effStep_codegen_eq H hoEq) (effStep_extractFromValue ov mem sg)


/-! ### Per-case unfolding equations for `Expr.codegen` -/

theorem codegen_binary_eq (op : BinOp) (l r : Expr) (s : CodeGenContext) :
    Expr.codegen (.binaryExpr op l r) s =
    (let (lv?, s1) := l.codegen s
     let (rv?, s2) := r.codegen s1
     (match lv?, rv? with
      | some lv, some rv => binOpEmit op lv rv s2
      | _, _ => (none, s2))) := rfl

theorem codegen_assign_ident_eq (n : String) (r : Expr) (s : CodeGenContext) :
    Expr.codegen (.assignmentExpr (.identifier n) r) s =
    (let (rv?, s1) := Expr.codegen r s
     match rv? with
     | none => (none, s1)
     | some rv =>
       match s1.getAlloca n with
       | some (aid, _) =>
         (some rv, s1.appendCur (.instr (.store rv (.reg .ptr aid))))
       | none => (none, s1)) := rfl

theorem codegen_assign_arrident_eq (n : String) (idx r : Expr)
    (s : CodeGenContext) :
    Expr.codegen (.assignmentExpr (.arrayAccess (.identifier n) idx) r) s =
    (let (rv?, s1) := Expr.codegen r s
     match rv? with
     | none => (none, s1)
     | some rv =>
       match s1.getAlloca n with
       | some (aid, aty) =>
         (match aty with
          | .array asz elemTy =>
            let (iv?, s2) := idx.codegen s1
            let (ep, s3) := arrayElemPtr aid asz elemTy iv? s2
            (some rv, s3.appendCur (.instr (.store rv ep)))
          | _ => (none, s1))
       | none => (none, s1)) := rfl

theorem codegen_assign_memident_eq (n mem : String) (r : Expr)
    (s : CodeGenContext) :
    Expr.codegen (.assignmentExpr (.memberAccess (.identifier n) mem) r) s =
    (let (rv?, s1) := Expr.codegen r s
     match rv? with
     | none => (none, s1)
     | some rv =>
       match s1.getAlloca n with
       | some (aid, aty) =>
         (match aty with
          | .structT sn fields =>
            memberStructStore sn fields (.reg .ptr aid) mem rv s1
          | _ => (none, s1))
       | none => (none, s1)) := rfl

theorem codegen_assign_memarr_eq (n : String) (idx : Expr) (mem : String)
    (r : Expr) (s : CodeGenContext) :
    Expr.codegen
      (.assignmentExpr (.memberAccess (.arrayAccess (.identifier n) idx) mem) r)
      s =
    (let (rv?, s1) := Expr.codegen r s
     match rv? with
     | none => (none, s1)
     | some rv =>
       match s1.getAlloca n with
       | some (aid, aty) =>
         (match aty with
          | .array asz elemTy =>
            let (iv?, s2) := idx.codegen s1
            let (ep, s3) := arrayElemPtr aid asz elemTy iv? s2
            (match elemTy with
             | .structT sn fields => memberStructStore sn fields ep mem rv s3
             | _ => (none, s3))
          | _ => (none, s1))
       | none => (none, s1)) := rfl

/-- Assignment targets other than the four recognised l-value shapes fall
through to the null result after the right-hand side has been evaluated. -/
theorem assignFallthrough (l r : Expr) (s : CodeGenContext)
    (hr : ∀ st, EffStep st (Expr.codegen r st).2)
    (heq : Expr.codegen (.assignmentExpr l r) s =
      (let (rv?, s1) := Expr.codegen r s
       match rv? with
       | none => ((none : Option Val), s1)
       | some _ => ((none : Option Val), s1))) :
    EffStep s (Expr.codegen (.assignmentExpr l r) s).2 := by
  rw [heq]
  rcases h : Expr.codegen r s with ⟨rv?, s1⟩
  have h1 := hr s
  rw [h] at h1
  dsimp only
  cases rv? <;> exact h1

theorem codegen_unary_eq (op : UnOp) (e : Expr) (s : CodeGenContext) :
    Expr.codegen (.unaryExpr op e) s =
    (let (ov?, s1) := e.codegen s
     (match ov? with
      | none => (none, s1)
      | some ov =>
        match op with
        | .NOT => s1.emitVal (.notB ov) ov.getType
        | .NEG =>
          if ov.getType.isFloatingPointTy then s1.emitVal (.fneg ov) ov.getType
          else s1.emitVal (.neg ov) ov.getType
        | .DEREF => s1.emitVal (.load (.int 32) ov "dereftmp") (.int 32)
        | .ADDR =>
          match e with
          | .identifier n =>
            (match s1.getAlloca n with
             | some (aid, _) => (some (.reg .ptr aid), s1)
             | none => (none, s1))
          | _ => (none, s1))) := rfl

theorem codegen_call_eq (fn : String) (args : List Expr) (s : CodeGenContext) :
    Expr.codegen (.callExpr fn args) s =
    (match tblGet fn s.funcs with
     | none => (none, s)
     | some retTy =>
       let (argVals, s1) := Expr.codegenList args s
       if retTy.isVoidTy then s1.emitVal (.call fn argVals false) retTy
       else s1.emitVal (.call fn argVals true) retTy) := rfl

theorem codegen_member_ident_eq (n mem : String) (s : CodeGenContext) :
    Expr.codegen (.memberAccess (.identifier n) mem) s =
    (match s.getAlloca n with
     | some (aid, aty) =>
       (match aty with
        | .structT sn fields => memberStructLoad sn fields (.reg .ptr aid) mem s
        | _ => memberIdentFallback n mem s)
     | none => memberIdentFallback n mem s) := rfl

theorem codegen_member_arr_eq (n : String) (idx : Expr) (mem : String)
    (s : CodeGenContext) :
    Expr.codegen (.memberAccess (.arrayAccess (.identifier n) idx) mem) s =
    (match s.getAlloca n with
     | some (aid, aty) =>
       (match aty with
        | .array asz elemTy =>
          let (iv?, s1) := idx.codegen s
          let (ep, s2) := arrayElemPtr aid asz elemTy iv? s1
          (match elemTy with
           | .structT sn fields => memberStructLoad sn fields ep mem s2
           | _ =>
             let (iv2?, t1) := idx.codegen s2
             let (ov?, t3) := arrayElemLoad aid asz elemTy iv2? t1
             extractFromValue ov? mem t3)
        | _ => extractFromValue none mem s)
     | none => extractFromValue none mem s) := rfl

theorem codegen_array_eq (arr idx : Expr) (s : CodeGenContext) :
    Expr.codegen (.arrayAccess arr idx) s =
    (match arr with
     | .identifier n =>
       (match s.getAlloca n with
        | some (aid, aty) =>
          (match aty with
           | .array asz elemTy =>
             let (iv?, s1) := idx.codegen s
             arrayElemLoad aid asz elemTy iv? s1
           | _ => (none, s))
        | none => (none, s))
     | _ => (none, s)) := rfl

theorem codegenList_cons_eq (e : Expr) (rest : List Expr) (s : CodeGenContext) :
    Expr.codegenList (e :: rest) s =
    (let (v?, s1) := e.codegen s
     let (vs, s2) := Expr.codegenList rest s1
     (v? :: vs, s2)) := rfl

/-! ### Expression generators are pure instruction appenders -/

theorem effStep_arrayElemPtr (aid asz : Nat) (elemTy : LLVMType)
    (iv? : Option Val) (s : CodeGenContext) :
    EffStep s (arrayElemPtr aid asz elemTy iv? s).2 := by
  unfold arrayElemPtr
  exact effStep_emit

theorem effStep_arrayElemLoad (aid asz : Nat) (elemTy : LLVMType)
    (iv? : Option Val) (s : CodeGenContext) :
    EffStep s (arrayElemLoad aid asz elemTy iv? s).2 := by
  unfold arrayElemLoad arrayElemPtr
  split
  rename_i ep s2 hEq
  have h1 : EffStep s s2 := by
    have h := (effStep_emit :
      EffStep s (s.emit (.gep (.array asz elemTy) (.reg .ptr aid)
        [some (.constInt 32 0), iv?] "arrayidx") .ptr).2)
    rw [hEq] at h
    exact h
  exact effStep_trans h1 effStep_emitVal

theorem effStep_memberStructLoad (sn : String) (fields : List LLVMType)
    (base : Val) (mem : String) (s : CodeGenContext) :
    EffStep s (memberStructLoad sn fields base mem s).2 := by
  unfold memberStructLoad
  cases memberIndex mem with
  | none => exact effStep_refl
  | some mi =>
    dsimp only
    have e1 : EffStep s
        (s.emit (.structGEP (.structT sn fields) base mi mem) .ptr).2 :=
      effStep_emit
    cases fields.get? mi with
    | none => exact e1
    | some mty => exact effStep_trans e1 effStep_emitVal

theorem effStep_memberStructStore (sn : String) (fields : List LLVMType)
    (base : Val) (mem : String) (rv : Val) (s : CodeGenContext) :
    EffStep s (memberStructStore sn fields base mem rv s).2 := by
  unfold memberStructStore
  cases memberIndex mem with
  | none => exact effStep_refl
  | some mi =>
    dsimp only
    exact effStep_trans
      (effStep_emit :
        EffStep s (s.emit (.structGEP (.structT sn fields) base mi mem) .ptr).2)
      effStep_appendInstr

/-- Effect shape of `BinaryExpr::codegen` given those of its operands. -/
theorem binEff (op : BinOp) (l r : Expr) (s : CodeGenContext)
    (hl : ∀ st, EffStep st (Expr.codegen l st).2)
    (hr : ∀ st, EffStep st (Expr.codegen r st).2) :
    EffStep s (Expr.codegen (.binaryExpr op l r) s).2 := by
  rw [codegen_binary_eq]
  split
  rename_i lv1 s1 hlEq
  split
  rename_i rv1 s2 hrEq
  have e12 := effStep_trans (effStep_codegen_eq hl hlEq) (effStep_codegen_eq hr hrEq)
  cases lv1 <;> cases rv1 <;> try exact e12
  rename_i lv rv
  unfold binOpEmit
  cases op <;> try dsimp only
  all_goals first
    | exact effStep_trans e12 effStep_emitVal
    | (split <;> exact effStep_trans e12 effStep_emitVal)

/-- Effect shape of assignment to a plain identifier. -/
theorem assignIdentEff (n : String) (r : Expr) (s : CodeGenContext)
    (hr : ∀ st, EffStep st (Expr.codegen r st).2) :
    EffStep s (Expr.codegen (.assignmentExpr (.identifier n) r) s).2 := by
  rw [codegen_assign_ident_eq]
  split
  rename_i rv1 s1 hrEq
  have e1 := effStep_codegen_eq hr hrEq
  cases rv1 with
  | none => exact e1
  | some rv =>
    try dsimp only
    cases s1.getAlloca n with
    | none => exact e1
    | some p =>
      obtain ⟨aid, _⟩ := p
      try dsimp only
      exact effStep_trans e1 effStep_appendInstr

/-- Effect shape of assignment to an array element of an identifier. -/
theorem assignArrIdentEff (n : String) (idx r : Expr) (s : CodeGenContext)
    (hr : ∀ st, EffStep st (Expr.codegen r st).2)
    (hidx : ∀ st, EffStep st (Expr.codegen idx st).2) :
    EffStep s
      (Expr.codegen (.assignmentExpr (.arrayAccess (.identifier n) idx) r) s).2 := by
  rw [codegen_assign_arrident_eq]
  split
  rename_i rv1 s1 hrEq
  have e1 := effStep_codegen_eq hr hrEq
  cases rv1 with
  | none => exact e1
  | some rv =>
    try dsimp only
    cases s1.getAlloca n with
    | none => exact e1
    | some p =>
      obtain ⟨aid, aty⟩ := p
      try dsimp only
      cases aty <;> try exact e1
      rename_i asz elemTy
      try dsimp only
      exact effStep_trans
        (effStep_trans (effStep_trans e1 (hidx s1))
          (effStep_arrayElemPtr aid asz elemTy (Expr.codegen idx s1).1
            (Expr.codegen idx s1).2))
        effStep_appendInstr

/-- Effect shape of assignment to a struct member of an identifier. -/
theorem assignMemIdentEff (n mem : String) (r : Expr) (s : CodeGenContext)
    (hr : ∀ st, EffStep st (Expr.codegen r st).2) :
    EffStep s
      (Expr.codegen (.assignmentExpr (.memberAccess (.identifier n) mem) r) s).2 := by
  rw [codegen_assign_memident_eq]
  split
  rename_i rv1 s1 hrEq
  have e1 := effStep_codegen_eq hr hrEq
  cases rv1 with
  | none => exact e1
  | some rv =>
    try dsimp only
    cases s1.getAlloca n with
    | none => exact e1
    | some p =>
      obtain ⟨aid, aty⟩ := p
      try dsimp only
      cases aty <;> try exact e1
      rename_i sn fields
      try dsimp only
      exact effStep_trans e1 (effStep_memberStructStore sn fields _ mem rv s1)

/-- Effect shape of assignment to a struct member of an array element. -/
theorem assignMemArrEff (n : String) (idx : Expr) (mem : String) (r : Expr)
    (s : CodeGenContext)
    (hr : ∀ st, EffStep st (Expr.codegen r st).2)
    (hidx : ∀ st, EffStep st (Expr.codegen idx st).2) :
    EffStep s
      (Expr.codegen
        (.assignmentExpr (.memberAccess (.arrayAccess (.identifier n) idx) mem) r)
        s).2 := by
  rw [codegen_assign_memarr_eq]
  split
  rename_i rv1 s1 hrEq
  have e1 := effStep_codegen_eq hr hrEq
  cases rv1 with
  | none => exact e1
  | some rv =>
    try dsimp only
    cases s1.getAlloca n with
    | none => exact e1
    | some p =>
      obtain ⟨aid, aty⟩ := p
      try dsimp only
      cases aty <;> try exact e1
      rename_i asz elemTy
      try dsimp only
      have e123 := effStep_trans (effStep_trans e1 (hidx s1))
        (effStep_arrayElemPtr aid asz elemTy (Expr.codegen idx s1).1
          (Expr.codegen idx s1).2)
      cases elemTy <;> try exact e123
      rename_i sn fields
      try dsimp only
      exact effStep_trans e123
        (effStep_memberStructStore sn fields _ mem rv _)

/-- Effect shape of `UnaryExpr::codegen` given that of its operand. -/
theorem unaryEff (op : UnOp) (e : Expr) (s : CodeGenContext)
    (he : ∀ st, EffStep st (Expr.codegen e st).2) :
    EffStep s (Expr.codegen (.unaryExpr op e) s).2 := by
  rw [codegen_unary_eq]
  split
  rename_i ov1 s1 hoEq
  have e1 := effStep_codegen_eq he hoEq
  cases ov1 with
  | none => exact e1
  | some ov =>
    try dsimp only
    cases op <;> try dsimp only
    case NOT => exact effStep_trans e1 effStep_emitVal
    case NEG => split <;> exact effStep_trans e1 effStep_emitVal
    case DEREF => exact effStep_trans e1 effStep_emitVal
    case ADDR =>
      cases e <;> try exact e1
      rename_i n
      try dsimp only
      cases s1.getAlloca n with
      | none => exact e1
      | some p => obtain ⟨aid, _⟩ := p; exact e1

/-- Effect shape of `CallExpr::codegen` given that of its arguments. -/
theorem callEff (fn : String) (args : List Expr) (s : CodeGenContext)
    (hargs : ∀ st, EffStep st (Expr.codegenList args st).2) :
    EffStep s (Expr.codegen (.callExpr fn args) s).2 := by
  rw [codegen_call_eq]
  cases tblGet fn s.funcs with
  | none => exact effStep_refl
  | some retTy =>
    try dsimp only
    have e1 := hargs s
    split <;> exact effStep_trans e1 effStep_emitVal

/-- Effect shape of `MemberAccess::codegen` on an array element of an
identifier, given the effect shape of the index expression. -/
theorem memberArrIdentEff (n : String) (idx : Expr) (mem : String)
    (s : CodeGenContext)
    (hidx : ∀ st, EffStep st (Expr.codegen idx st).2) :
    EffStep s
      (Expr.codegen (.memberAccess (.arrayAccess (.identifier n) idx) mem) s).2 := by
  rw [codegen_member_arr_eq]
  cases s.getAlloca n with
  | none => exact effStep_extractFromValue none mem s
  | some p =>
    obtain ⟨aid, aty⟩ := p
    try dsimp only
    cases aty <;> try exact effStep_extractFromValue none mem s
    rename_i asz elemTy
    try dsimp only
    have e12 := effStep_trans (hidx s)
      (effStep_arrayElemPtr aid asz elemTy (Expr.codegen idx s).1
        (Expr.codegen idx s).2)
    cases elemTy
    case structT sn fields =>
      try dsimp only
      exact effStep_trans e12 (effStep_memberStructLoad sn fields _ mem _)
    all_goals (
      try dsimp only
      refine effStep_trans (effStep_trans (effStep_trans e12 (hidx _))
        (effStep_arrayElemLoad aid asz _ _ _))
        (effStep_extractFromValue _ mem _))

/-- Effect shape of `ArrayAccess::codegen` on an identifier base. -/
theorem arrIdentEff (n : String) (idx : Expr) (s : CodeGenContext)
    (hidx : ∀ st, EffStep st (Expr.codegen idx st).2) :
    EffStep s (Expr.codegen (.arrayAccess (.identifier n) idx) s).2 := by
  rw [codegen_array_eq]
  dsimp only
  cases s.getAlloca n with
  | none => exact effStep_refl
  | some p =>
    obtain ⟨aid, aty⟩ := p
    try dsimp only
    cases aty <;> try exact effStep_refl
    rename_i asz elemTy
    try dsimp only
    exact effStep_trans (hidx s)
      (effStep_arrayElemLoad aid asz elemTy (Expr.codegen idx s).1
        (Expr.codegen idx s).2)

mutual

/-- Every expression generator is an `EffStep`: it only appends ordinary
instructions to the current insertion block and bumps the value counter;
blocks, the insertion point, scopes and tables are untouched. -/
theorem exprEffects : ∀ (e : Expr) (s : CodeGenContext), EffStep s (Expr.codegen e s).2
  | .intLiteral _, _ => effStep_refl
  | .floatLiteral _, _ => effStep_refl
  | .stringLiteral _, _ => effStep_refl
  | .boolLiteral _, _ => effStep_refl
  | .identifier n, s => effStep_identCodegen n s
  | .binaryExpr op l r, s =>
    binEff op l r s (fun st => exprEffects l st) (fun st => exprEffects r st)
  | .assignmentExpr l r, s => by
    have hr := fun st => exprEffects r st
    cases l
    case identifier n => exact assignIdentEff n r s hr
    case arrayAccess arr idx =>
      have hidx := fun st => exprEffects idx st
      cases arr
      case identifier n => exact assignArrIdentEff n idx r s hr hidx
      all_goals exact assignFallthrough _ r s hr rfl
    case memberAccess obj mem =>
      cases obj
      case identifier n => exact assignMemIdentEff n mem r s hr
      case arrayAccess arr2 idx2 =>
        have hidx2 := fun st => exprEffects idx2 st
        cases arr2
        case identifier n => exact assignMemArrEff n idx2 mem r s hr hidx2
        all_goals exact assignFallthrough _ r s hr rfl
      all_goals exact assignFallthrough _ r s hr rfl
    all_goals exact assignFallthrough _ r s hr rfl
  | .unaryExpr op e, s => unaryEff op e s (fun st => exprEffects e st)
  | .callExpr fn args, s => callEff fn args s (fun st => exprEffectsList args st)
  | .memberAccess obj mem, s => by
    have h := fun st => exprEffects obj st
    cases obj
    case identifier n => exact memberIdentEff n mem s
    case arrayAccess arr idx =>
      have hidx := fun st => exprEffects idx st
      cases arr
      case identifier n => exact memberArrIdentEff n idx mem s hidx
      all_goals exact memberGenericStep _ mem s h
    all_goals exact memberGenericStep _ mem s h
  | .arrayAccess arr idx, s => by
    have hidx := fun st => exprEffects idx st
    cases arr
    case identifier n => exact arrIdentEff n idx s hidx
    all_goals exact effStep_refl

/-- `Expr.codegenList` is an `EffStep` as well. -/
theorem exprEffectsList : ∀ (l : List Expr) (s : CodeGenContext),
    EffStep s (Expr.codegenList l s).2
  | [], _ => effStep_refl
  | e :: rest, s => by
    have h1 := fun st => exprEffects e st
    have h2 := fun st => exprEffectsList rest st
    rw [codegenList_cons_eq]
    split
    rename_i v1 s1 hEq1
    split
    rename_i vs s2 hEq2
    have e2 : EffStep s1 s2 := by
      have h3 := h2 s1
      rw [hEq2] at h3
      exact h3
    exact effStep_trans (effStep_codegen_eq h1 hEq1) e2

end


/-! ### Statement-level preservation -/

/-! ### Per-case unfolding equations for `Stmt.codegen` -/

theorem stmt_codegen_let_eq (ty : Ty) (n : String) (v : Expr) (s : CodeGenContext) :
    Stmt.codegen (.letStmt ty n v) s =
    (match s.getLLVMType ty with
     | none => s
     | some lty =>
       let (av, s1) := s.createAlloca n lty
       if lty.isStructTy || lty.isArrayTy then
         s1.appendCur (.instr (.store (.constAggZero lty) av))
       else
         let (v?, s2) := v.codegen s1
         match v? with
         | none => s2
         | some w => s2.appendCur (.instr (.store w av))) := rfl

theorem stmt_codegen_return_eq (e? : Option Expr) (s : CodeGenContext) :
    Stmt.codegen (.returnStmt e?) s =
    (match e? with
     | some e =>
       let (v?, s1) := e.codegen s
       s1.appendCur (.term (.ret v?))
     | none => s.appendCur (.term .retVoid)) := rfl

theorem stmt_codegen_expr_eq (e : Expr) (s : CodeGenContext) :
    Stmt.codegen (.exprStmt e) s = (e.codegen s).2 := rfl

theorem stmt_codegen_if_eq (cond : Expr) (thenB elseB : List Stmt)
    (s : CodeGenContext) :
    Stmt.codegen (.ifStmt cond thenB elseB) s =
    (let (cv?, s0) := cond.codegen s
     let (thenId, s1) := s0.newBlock true
     let (elseId, s2) := s1.newBlock false
     let (mergeId, s3) := s2.newBlock false
     let s4 := s3.appendCur (.term (.condBr cv? thenId elseId))
     let s5 := (s4.setInsertPoint thenId).enterScope
     let s6 := (Stmt.codegenList thenB s5).exitScope
     let s7 := if (s6.getTerm s6.cur).isNone then s6.appendCur (.term (.br mergeId)) else s6
     let s8 :=
       if elseB.isEmpty then
         ((s7.attachBlock elseId).setInsertPoint elseId).appendCur (.term (.br mergeId))
       else
         let s9 := ((s7.attachBlock elseId).setInsertPoint elseId).enterScope
         let s10 := (Stmt.codegenList elseB s9).exitScope
         if (s10.getTerm s10.cur).isNone then s10.appendCur (.term (.br mergeId)) else s10
     if 1 ≤ predCount s8 mergeId then (s8.attachBlock mergeId).setInsertPoint mergeId
     else s8.deleteBlock mergeId) := rfl

theorem stmt_codegen_while_eq (cond : Expr) (body : List Stmt) (s : CodeGenContext) :
    Stmt.codegen (.whileStmt cond body) s =
    (let (condId, s1) := s.newBlock true
     let (bodyId, s2) := s1.newBlock true
     let (endId, s3) := s2.newBlock true
     let s4 := s3.appendCur (.term (.br condId))
     let s5 := s4.setInsertPoint condId
     let (cv?, s6) := cond.codegen s5
     let s7 := s6.appendCur (.term (.condBr cv? bodyId endId))
     let s8 := (s7.setInsertPoint bodyId).enterScope
     let s9 := (Stmt.codegenList body s8).exitScope
     let s10 := if (s9.getTerm s9.cur).isNone then s9.appendCur (.term (.br condId)) else s9
     s10.setInsertPoint endId) := rfl

theorem stmt_codegenList_cons_eq (st : Stmt) (rest : List Stmt) (s : CodeGenContext) :
    Stmt.codegenList (st :: rest) s = Stmt.codegenList rest (st.codegen s) := rfl

/-! ### Structural lemmas for `StPresFrom` -/

theorem stPres_refl {base : Nat} {s : CodeGenContext} : StPresFrom base s s where
  nextId_le := le_refl _
  entry_eq := rfl
  cur_or := Or.inl rfl
  cur_lt := fun h => h
  old_blocks := fun b hb _ _ _ => hb
  id_of := fun b' hb' => Or.inl ⟨b', hb', rfl⟩
  pred_lo := fun _ _ => rfl
  wf_blocks := fun h => h
  count_lo := fun _ _ => rfl

theorem stPres_trans {base : Nat} {s t u : CodeGenContext}
    (h1 : StPresFrom base s t) (h2 : StPresFrom base t u) : StPresFrom base s u where
  nextId_le := le_trans h1.nextId_le h2.nextId_le
  entry_eq := h2.entry_eq.trans h1.entry_eq
  cur_or := by
    rcases h2.cur_or with h | h
    · rw [h]; exact h1.cur_or
    · exact Or.inr h
  cur_lt := fun h => h2.cur_lt (h1.cur_lt h)
  old_blocks := by
    intro b hb hlt hne hnc
    have hbt := h1.old_blocks b hb hlt hne hnc
    refine h2.old_blocks b hbt hlt (by rw [h1.entry_eq]; exact hne) ?_
    rcases h1.cur_or with h | h
    · rw [h]; exact hnc
    · exact fun hEq => absurd (hEq ▸ h) (by omega)
  id_of := by
    intro b' hb'
    rcases h2.id_of b' hb' with ⟨b, hbt, hid⟩ | h
    · rcases h1.id_of b hbt with ⟨b0, hb0, hid0⟩ | h
      · exact Or.inl ⟨b0, hb0, hid ▸ hid0⟩
      · exact Or.inr (hid ▸ h)
    · exact Or.inr h
  pred_lo := fun m hm => (h2.pred_lo m hm).trans (h1.pred_lo m hm)
  wf_blocks := fun h => h2.wf_blocks (h1.wf_blocks h)
  count_lo := fun m hm => (h2.count_lo m hm).trans (h1.count_lo m hm)

theorem stPres_weaken {b b' : Nat} {s s' : CodeGenContext} (hle : b ≤ b')
    (h : StPresFrom b' s s') : StPresFrom b s s' where
  nextId_le := h.nextId_le
  entry_eq := h.entry_eq
  cur_or := h.cur_or.imp (fun x => x) (fun x => le_trans hle x)
  cur_lt := h.cur_lt
  old_blocks := fun bb hb hlt => h.old_blocks bb hb (lt_of_lt_of_le hlt hle)
  id_of := fun bb hb => (h.id_of bb hb).imp (fun x => x) (fun x => le_trans hle x)
  pred_lo := fun m hm => h.pred_lo m (lt_of_lt_of_le hm hle)
  wf_blocks := h.wf_blocks
  count_lo := fun m hm => h.count_lo m (lt_of_lt_of_le hm hle)

/-! ### Per-operation facts used by the preservation proof -/

theorem effStep_predCount {s s' : CodeGenContext} (h : EffStep s s') (m : Nat) :
    predCount s' m = predCount s m := by
  obtain ⟨added, f', hIO, rfl⟩ := h
  show pcList (blocksAppend s.blocks s.cur added) m = pcList s.blocks m
  rw [pcList_blocksAppend, wInstrs_instrOnly hIO]
  ring

theorem effStep_countIdBlocks {s s' : CodeGenContext} (h : EffStep s s') (m : Nat) :
    countIdBlocks s' m = countIdBlocks s m := by
  obtain ⟨added, f', hIO, rfl⟩ := h
  show (s.blocks.map _).countP _ = _
  exact countP_map_id_preserving _ _ (fun b => by split <;> rfl) m

theorem effStep_stPres {base : Nat} {s s' : CodeGenContext} (h : EffStep s s') :
    StPresFrom base s s' := by
  have hpc := effStep_predCount h
  have hcib := effStep_countIdBlocks h
  obtain ⟨added, f', hIO, rfl⟩ := h
  refine ⟨le_refl _, rfl, Or.inl rfl, fun h => h, ?_, ?_, fun m _ => hpc m, ?_, fun m _ => hcib m⟩
  · exact fun b hb _ _ hnc => mem_blocksAppend_of_ne hb hnc
  · intro b' hb'
    obtain ⟨b, hb, rfl⟩ := List.mem_map.mp hb'
    refine Or.inl ⟨b, hb, ?_⟩
    split <;> rfl
  · intro hwf b' hb'
    obtain ⟨b, hb, rfl⟩ := List.mem_map.mp hb'
    have := hwf b hb
    split <;> exact this

theorem predCount_newBlock (s : CodeGenContext) (a : Bool) (m : Nat) :
    predCount (s.newBlock a).2 m = predCount s m := by
  show pcList (s.blocks ++ [BB.mk s.nextId [] a]) m = pcList s.blocks m
  rw [pcList_append, pcList_cons, pcList_nil, predWeight_mk, wInstrs_nil]
  ring

theorem countIdBlocks_newBlock (s : CodeGenContext) (a : Bool) (m : Nat) :
    countIdBlocks (s.newBlock a).2 m =
      countIdBlocks s m + (if s.nextId = m then 1 else 0) := by
  show (s.blocks ++ [BB.mk s.nextId [] a]).countP _ = _
  rw [List.countP_append]
  simp [countIdBlocks, List.countP_cons]

theorem appendCur_blocks (s : CodeGenContext) (bi : BInstr) :
    (s.appendCur bi).blocks = blocksAppend s.blocks s.cur [bi] := rfl

theorem predCount_appendCur (s : CodeGenContext) (bi : BInstr) (m : Nat) :
    predCount (s.appendCur bi) m =
      predCount s m + countIdBlocks s s.cur * wInstrs [bi] m := by
  show pcList (blocksAppend s.blocks s.cur [bi]) m = _
  rw [pcList_blocksAppend]
  rfl

theorem countIdBlocks_appendCur (s : CodeGenContext) (bi : BInstr) (m : Nat) :
    countIdBlocks (s.appendCur bi) m = countIdBlocks s m := by
  show (s.blocks.map _).countP _ = _
  exact countP_map_id_preserving _ _ (fun b => by split <;> rfl) m

theorem pcList_map_weight_preserving (l : List BB) (f : BB → BB)
    (hf : ∀ b, (f b).predWeight = b.predWeight) (m : Nat) :
    pcList (l.map f) m = pcList l m := by
  induction l with
  | nil => rfl
  | cons b rest ih => simp only [List.map_cons, pcList_cons, hf, ih]

theorem predCount_attachBlock (s : CodeGenContext) (bid : Nat) (m : Nat) :
    predCount (s.attachBlock bid) m = predCount s m := by
  show pcList (s.blocks.map _) m = pcList s.blocks m
  refine pcList_map_weight_preserving _ _ (fun b => ?_) m
  split <;> rfl

theorem countIdBlocks_attachBlock (s : CodeGenContext) (bid : Nat) (m : Nat) :
    countIdBlocks (s.attachBlock bid) m = countIdBlocks s m := by
  show (s.blocks.map _).countP _ = _
  exact countP_map_id_preserving _ _ (fun b => by split <;> rfl) m

theorem predCount_createAlloca (s : CodeGenContext) (n : String) (ty : LLVMType)
    (m : Nat) : predCount (s.createAlloca n ty).2 m = predCount s m := by
  show pcList (s.blocks.map _) m = pcList s.blocks m
  refine pcList_map_weight_preserving _ _ (fun b => ?_) m
  split
  · funext k
    rw [predWeight_eq_wInstrs, predWeight_eq_wInstrs]
    show wInstrs (.instr (.alloca n ty s.fresh) :: b.instrs) k = _
    rw [wInstrs_cons]
    show List.count k ([] : List Nat) + _ = _
    rw [List.count_nil]
    ring
  · rfl

theorem countIdBlocks_createAlloca (s : CodeGenContext) (n : String) (ty : LLVMType)
    (m : Nat) : countIdBlocks (s.createAlloca n ty).2 m = countIdBlocks s m := by
  show (s.blocks.map _).countP _ = _
  exact countP_map_id_preserving _ _ (fun b => by split <;> rfl) m

/-! ### `StPresFrom` for each generator operation -/

theorem stPres_newBlock {base : Nat} {s : CodeGenContext} {a : Bool}
    (h : base ≤ s.nextId) : StPresFrom base s (s.newBlock a).2 where
  nextId_le := by show s.nextId ≤ s.nextId + 1; omega
  entry_eq := rfl
  cur_or := Or.inl rfl
  cur_lt := fun hc => by show s.cur < s.nextId + 1; omega
  old_blocks := fun b hb _ _ _ => List.mem_append_left _ hb
  id_of := by
    intro b' hb'
    rcases List.mem_append.mp hb' with hb | hb
    · exact Or.inl ⟨b', hb, rfl⟩
    · rcases List.mem_singleton.mp hb with rfl
      exact Or.inr h
  pred_lo := fun m _ => predCount_newBlock s a m
  wf_blocks := by
    intro hwf b' hb'
    rcases List.mem_append.mp hb' with hb | hb
    · have := hwf b' hb
      show b'.id < s.nextId + 1
      omega
    · rcases List.mem_singleton.mp hb with rfl
      show s.nextId < s.nextId + 1
      omega
  count_lo := fun m hm => by
    rw [countIdBlocks_newBlock]
    have : ¬ s.nextId = m := by omega
    simp [this]

theorem stPres_appendCurTerm {base : Nat} {s : CodeGenContext} {t : Terminator}
    (ht : ∀ m ∈ termTargets t, base ≤ m) :
    StPresFrom base s (s.appendCur (.term t)) where
  nextId_le := le_refl _
  entry_eq := rfl
  cur_or := Or.inl rfl
  cur_lt := fun h => h
  old_blocks := fun b hb _ _ hnc => mem_blocksAppend_of_ne hb hnc
  id_of := by
    intro b' hb'
    obtain ⟨b, hb, rfl⟩ := List.mem_map.mp hb'
    refine Or.inl ⟨b, hb, ?_⟩
    split <;> rfl
  pred_lo := by
    intro m hm
    rw [predCount_appendCur]
    have hz : wInstrs [.term t] m = 0 := by
      rw [wInstrs_cons, wInstrs_nil]
      show (termTargets t).count m + 0 = 0
      have : m ∉ termTargets t := fun hmem => absurd (ht m hmem) (by omega)
      rw [List.count_eq_zero.mpr this]
    rw [hz]
    ring
  wf_blocks := by
    intro hwf b' hb'
    obtain ⟨b, hb, rfl⟩ := List.mem_map.mp hb'
    have := hwf b hb
    split <;> exact this
  count_lo := fun m _ => countIdBlocks_appendCur s _ m

theorem stPres_setInsertPoint {base : Nat} {s : CodeGenContext} {bid : Nat}
    (h1 : base ≤ bid) (h2 : bid < s.nextId) :
    StPresFrom base s (s.setInsertPoint bid) where
  nextId_le := le_refl _
  entry_eq := rfl
  cur_or := Or.inr h1
  cur_lt := fun _ => h2
  old_blocks := fun b hb _ _ _ => hb
  id_of := fun b' hb' => Or.inl ⟨b', hb', rfl⟩
  pred_lo := fun _ _ => rfl
  wf_blocks := fun h => h
  count_lo := fun _ _ => rfl

theorem stPres_attachBlock {base : Nat} {s : CodeGenContext} {bid : Nat}
    (h : base ≤ bid) : StPresFrom base s (s.attachBlock bid) where
  nextId_le := le_refl _
  entry_eq := rfl
  cur_or := Or.inl rfl
  cur_lt := fun hc => hc
  old_blocks := by
    intro b hb hlt _ _
    have hne : ¬ b.id = bid := by omega
    have h3 := List.mem_map_of_mem
      (fun b : BB => if b.id = bid then { b with attached := true } else b) hb
    dsimp only at h3
    rw [if_neg hne] at h3
    exact h3
  id_of := by
    intro b' hb'
    obtain ⟨b, hb, rfl⟩ := List.mem_map.mp hb'
    refine Or.inl ⟨b, hb, ?_⟩
    split <;> rfl
  pred_lo := fun m _ => predCount_attachBlock s bid m
  wf_blocks := by
    intro hwf b' hb'
    obtain ⟨b, hb, rfl⟩ := List.mem_map.mp hb'
    have := hwf b hb
    split <;> exact this
  count_lo := fun m _ => countIdBlocks_attachBlock s bid m

theorem stPres_enterScope {base : Nat} {s : CodeGenContext} :
    StPresFrom base s s.enterScope where
  nextId_le := le_refl _
  entry_eq := rfl
  cur_or := Or.inl rfl
  cur_lt := fun h => h
  old_blocks := fun b hb _ _ _ => hb
  id_of := fun b' hb' => Or.inl ⟨b', hb', rfl⟩
  pred_lo := fun _ _ => rfl
  wf_blocks := fun h => h
  count_lo := fun _ _ => rfl

theorem stPres_exitScope {base : Nat} {s : CodeGenContext} :
    StPresFrom base s s.exitScope where
  nextId_le := le_refl _
  entry_eq := rfl
  cur_or := Or.inl rfl
  cur_lt := fun h => h
  old_blocks := fun b hb _ _ _ => hb
  id_of := fun b' hb' => Or.inl ⟨b', hb', rfl⟩
  pred_lo := fun _ _ => rfl
  wf_blocks := fun h => h
  count_lo := fun _ _ => rfl

theorem stPres_createAlloca {base : Nat} {s : CodeGenContext} {n : String}
    {ty : LLVMType} : StPresFrom base s (s.createAlloca n ty).2 where
  nextId_le := le_refl _
  entry_eq := rfl
  cur_or := Or.inl rfl
  cur_lt := fun h => h
  old_blocks := by
    intro b hb _ hne _
    have h3 := List.mem_map_of_mem
      (fun b : BB => if b.id = s.entry
        then { b with instrs := .instr (.alloca n ty s.fresh) :: b.instrs } else b) hb
    dsimp only at h3
    rw [if_neg hne] at h3
    exact h3
  id_of := by
    intro b' hb'
    obtain ⟨b, hb, rfl⟩ := List.mem_map.mp hb'
    refine Or.inl ⟨b, hb, ?_⟩
    split <;> rfl
  pred_lo := fun m _ => predCount_createAlloca s n ty m
  wf_blocks := by
    intro hwf b' hb'
    obtain ⟨b, hb, rfl⟩ := List.mem_map.mp hb'
    have := hwf b hb
    split <;> exact this
  count_lo := fun m _ => countIdBlocks_createAlloca s n ty m

theorem stPres_appendCurInstr {base : Nat} {s : CodeGenContext} {i : Instr} :
    StPresFrom base s (s.appendCur (.instr i)) :=
  effStep_stPres effStep_appendInstr

/-! ### Block membership and deletion lemmas -/

theorem mem_newBlock_old {b : BB} {s : CodeGenContext} {a : Bool} (hb : b ∈ s.blocks) :
    b ∈ (s.newBlock a).2.blocks :=
  List.mem_append_left _ hb

theorem mem_newBlock_new (s : CodeGenContext) (a : Bool) :
    BB.mk s.nextId [] a ∈ (s.newBlock a).2.blocks := by
  show _ ∈ s.blocks ++ [BB.mk s.nextId [] a]
  exact List.mem_append_right _ (List.mem_singleton.mpr rfl)

theorem mem_appendCur_ne {b : BB} {s : CodeGenContext} {bi : BInstr}
    (hb : b ∈ s.blocks) (hne : b.id ≠ s.cur) : b ∈ (s.appendCur bi).blocks :=
  mem_blocksAppend_of_ne hb hne

theorem mem_attachBlock_ne {b : BB} {s : CodeGenContext} {bid : Nat}
    (hb : b ∈ s.blocks) (hne : b.id ≠ bid) : b ∈ (s.attachBlock bid).blocks := by
  have h3 := List.mem_map_of_mem
    (fun b : BB => if b.id = bid then { b with attached := true } else b) hb
  dsimp only at h3
  rw [if_neg hne] at h3
  exact h3

theorem mem_attachBlock_self {b : BB} {s : CodeGenContext} {bid : Nat}
    (hb : b ∈ s.blocks) (hid : b.id = bid) :
    { b with attached := true } ∈ (s.attachBlock bid).blocks := by
  have h3 := List.mem_map_of_mem
    (fun b : BB => if b.id = bid then { b with attached := true } else b) hb
  dsimp only at h3
  rw [if_pos hid] at h3
  exact h3

theorem mem_effStep_ne {b : BB} {s s' : CodeGenContext} (h : EffStep s s')
    (hb : b ∈ s.blocks) (hne : b.id ≠ s.cur) : b ∈ s'.blocks := by
  obtain ⟨added, f', _, rfl⟩ := h
  exact mem_blocksAppend_of_ne hb hne

theorem mem_deleteBlock {b : BB} {s : CodeGenContext} {bid : Nat} :
    b ∈ (s.deleteBlock bid).blocks ↔ b ∈ s.blocks ∧ b.id ≠ bid := by
  show b ∈ s.blocks.filter _ ↔ _
  rw [List.mem_filter]
  constructor
  · rintro ⟨h1, h2⟩
    exact ⟨h1, by simpa using h2⟩
  · rintro ⟨h1, h2⟩
    exact ⟨h1, by simpa using h2⟩

theorem pcList_filter_ne (l : List BB) (bid m : Nat)
    (h : ∀ b ∈ l, b.id = bid → b.instrs = []) :
    pcList (l.filter fun b => b.id ≠ bid) m = pcList l m := by
  induction l with
  | nil => rfl
  | cons b rest ih =>
    rw [List.filter_cons]
    split
    · rw [pcList_cons, pcList_cons, ih fun x hx => h x (List.mem_cons_of_mem _ hx)]
    · rename_i hcond
      have hb : b.id = bid := by simpa using hcond
      have he := h b (List.mem_cons_self _ _) hb
      have hw : b.predWeight m = 0 := by
        rw [predWeight_eq_wInstrs, he, wInstrs_nil]
      rw [pcList_cons, hw, ih fun x hx => h x (List.mem_cons_of_mem _ hx)]
      ring

theorem predCount_deleteBlock_of_empty {s : CodeGenContext} {bid : Nat}
    (hEmpty : ∀ b ∈ s.blocks, b.id = bid → b.instrs = []) (m : Nat) :
    predCount (s.deleteBlock bid) m = predCount s m :=
  pcList_filter_ne s.blocks bid m hEmpty

theorem countP_filter_ne (l : List BB) (bid m : Nat) (hne : m ≠ bid) :
    ((l.filter fun b => b.id ≠ bid).countP fun b => b.id = m) =
      l.countP fun b => b.id = m := by
  induction l with
  | nil => rfl
  | cons b rest ih =>
    rw [List.filter_cons]
    split
    · rw [List.countP_cons, List.countP_cons, ih]
    · rename_i hcond
      have hb : b.id = bid := by simpa using hcond
      have hm : ¬ b.id = m := by omega
      rw [List.countP_cons, ih]
      simp [hm]

theorem countIdBlocks_deleteBlock_ne {s : CodeGenContext} {bid m : Nat}
    (hne : m ≠ bid) : countIdBlocks (s.deleteBlock bid) m = countIdBlocks s m :=
  countP_filter_ne s.blocks bid m hne

theorem stPres_deleteBlock {base : Nat} {s : CodeGenContext} {bid : Nat}
    (h : base ≤ bid)
    (hEmpty : ∀ b ∈ s.blocks, b.id = bid → b.instrs = []) :
    StPresFrom base s (s.deleteBlock bid) where
  nextId_le := le_refl _
  entry_eq := rfl
  cur_or := Or.inl rfl
  cur_lt := fun hc => hc
  old_blocks := fun b hb hlt _ _ =>
    mem_deleteBlock.mpr ⟨hb, by omega⟩
  id_of := fun b' hb' => Or.inl ⟨b', (mem_deleteBlock.mp hb').1, rfl⟩
  pred_lo := fun m _ => predCount_deleteBlock_of_empty hEmpty m
  wf_blocks := fun hwf b' hb' => hwf b' (mem_deleteBlock.mp hb').1
  count_lo := fun m hm => countIdBlocks_deleteBlock_ne (by omega)

theorem countP_eq_one_unique {α : Type} {p : α → Bool} {l : List α}
    (h : l.countP p = 1) {a b : α} (ha : a ∈ l) (hpa : p a)
    (hb : b ∈ l) (hpb : p b) : a = b := by
  induction l with
  | nil => cases ha
  | cons x rest ih =>
    rw [List.countP_cons] at h
    by_cases hx : p x
    · simp only [hx, if_pos trivial] at h
      have hz : rest.countP p = 0 := by omega
      have hnone : ∀ y ∈ rest, ¬ p y = true := List.countP_eq_zero.mp hz
      rcases List.mem_cons.mp ha with rfl | ha'
      · rcases List.mem_cons.mp hb with rfl | hb'
        · rfl
        · exact absurd hpb (hnone b hb')
      · exact absurd hpa (hnone a ha')
    · rw [if_neg hx, add_zero] at h
      rcases List.mem_cons.mp ha with rfl | ha'
      · exact absurd hpa hx
      · rcases List.mem_cons.mp hb with rfl | hb'
        · exact absurd hpb hx
        · exact ih h ha' hb' 

theorem countIdBlocks_unique {s : CodeGenContext} {m : Nat}
    (h : countIdBlocks s m = 1) {b b' : BB} (hb : b ∈ s.blocks) (hid : b.id = m)
    (hb' : b' ∈ s.blocks) (hid' : b'.id = m) : b = b' :=
  countP_eq_one_unique h hb (by simp [hid]) hb' (by simp [hid'])

theorem countIdBlocks_eq_zero_of_wf {s : CodeGenContext} {m : Nat}
    (hwf : ∀ b ∈ s.blocks, b.id < s.nextId) (hm : s.nextId ≤ m) :
    countIdBlocks s m = 0 := by
  refine List.countP_eq_zero.mpr ?_
  intro b hb
  have := hwf b hb
  simp only [decide_eq_true_eq]
  omega

theorem countIdBlocks_pos_of_mem {s : CodeGenContext} {m : Nat} {b : BB}
    (hb : b ∈ s.blocks) (hid : b.id = m) : 1 ≤ countIdBlocks s m := by
  exact List.countP_pos_iff.mpr ⟨b, hb, by simp [hid]⟩

/-- `WhileStmt::codegen` with the three block ids spelled out. -/
theorem stmt_codegen_while_ids (cond : Expr) (body : List Stmt) (s : CodeGenContext) :
    Stmt.codegen (.whileStmt cond body) s =
    (let s3 := (((s.newBlock true).2.newBlock true).2.newBlock true).2
     let s5 := (s3.appendCur (.term (.br s.nextId))).setInsertPoint s.nextId
     let s6 := (cond.codegen s5).2
     let s7 := s6.appendCur (.term (.condBr (cond.codegen s5).1 (s.nextId + 1) (s.nextId + 2)))
     let s9 := (Stmt.codegenList body ((s7.setInsertPoint (s.nextId + 1)).enterScope)).exitScope
     let s10 := if (s9.getTerm s9.cur).isNone then s9.appendCur (.term (.br s.nextId)) else s9
     s10.setInsertPoint (s.nextId + 2)) := rfl


/-- Full analysis of `WhileStmt::codegen`: one generator step (relative to
the pre-state's id counter), the `end` block is the final insertion point,
and the `end` block always has at least one predecessor — the conditional
branch emitted into the `cond` block. -/
theorem whileStmtFacts (cond : Expr) (body : List Stmt) (s : CodeGenContext)
    (hC : s.cur < s.nextId) (hWF : ∀ b ∈ s.blocks, b.id < s.nextId)
    (hE : s.entry < s.nextId)
    (IHb : ∀ t : CodeGenContext, t.cur < t.nextId →
      (∀ b ∈ t.blocks, b.id < t.nextId) → t.entry < t.nextId →
      StPresFrom t.nextId t (Stmt.codegenList body t)) :
    StPresFrom s.nextId s (Stmt.codegen (.whileStmt cond body) s) ∧
    (Stmt.codegen (.whileStmt cond body) s).cur = s.nextId + 2 ∧
    1 ≤ predCount (Stmt.codegen (.whileStmt cond body) s) (s.nextId + 2) := by
  rw [stmt_codegen_while_ids]
  dsimp only
  set s3 := (((s.newBlock true).2.newBlock true).2.newBlock true).2 with hs3
  set s4 := s3.appendCur (.term (.br s.nextId)) with hs4
  set s5 := s4.setInsertPoint s.nextId with hs5
  set s6 := (cond.codegen s5).2 with hs6
  set s7 := s6.appendCur
    (.term (.condBr (cond.codegen s5).1 (s.nextId + 1) (s.nextId + 2))) with hs7
  set s8 := (s7.setInsertPoint (s.nextId + 1)).enterScope with hs8
  set s9 := (Stmt.codegenList body s8).exitScope with hs9
  set s10 := (if (s9.getTerm s9.cur).isNone
    then s9.appendCur (.term (.br s.nextId)) else s9) with hs10
  -- numeric facts
  have h3n : s3.nextId = s.nextId + 3 := by
    show s.nextId + 1 + 1 + 1 = s.nextId + 3
    omega
  have hES : EffStep s5 s6 := exprEffects cond s5
  have h6spec := effStep_spec hES
  have h6n : s6.nextId = s.nextId + 3 := by
    rw [h6spec.2.2.1]
    show s3.nextId = _
    exact h3n
  have h7n : s7.nextId = s.nextId + 3 := h6n
  have h8n : s8.nextId = s.nextId + 3 := h7n
  have h6cur : s6.cur = s.nextId := by
    rw [h6spec.1]
    rfl
  -- preservation chain
  have P3 : StPresFrom s.nextId s s3 := by
    refine stPres_trans (stPres_trans (stPres_newBlock (le_refl _)) (stPres_newBlock ?_))
      (stPres_newBlock ?_)
    · show s.nextId ≤ s.nextId + 1
      omega
    · show s.nextId ≤ s.nextId + 1 + 1
      omega
  have P4 : StPresFrom s.nextId s3 s4 := by
    refine stPres_appendCurTerm ?_
    intro m hm
    have : m = s.nextId := by simpa [termTargets] using hm
    omega
  have P5 : StPresFrom s.nextId s4 s5 := by
    refine stPres_setInsertPoint (le_refl _) ?_
    show s.nextId < s.nextId + 1 + 1 + 1
    omega
  have P6 : StPresFrom s.nextId s5 s6 := effStep_stPres hES
  have P7 : StPresFrom s.nextId s6 s7 := by
    refine stPres_appendCurTerm ?_
    intro m hm
    have : m = s.nextId + 1 ∨ m = s.nextId + 2 := by simpa [termTargets] using hm
    omega
  have P8 : StPresFrom s.nextId s7 s8 := by
    refine stPres_trans (stPres_setInsertPoint (by omega) ?_) stPres_enterScope
    rw [h7n]
    omega
  have Pto8 : StPresFrom s.nextId s s8 :=
    stPres_trans P3 (stPres_trans P4 (stPres_trans P5 (stPres_trans P6
      (stPres_trans P7 P8))))
  have hC8 : s8.cur < s8.nextId := by
    show s.nextId + 1 < s8.nextId
    rw [h8n]
    omega
  have hWF8 : ∀ b ∈ s8.blocks, b.id < s8.nextId := Pto8.wf_blocks hWF
  have hE8 : s8.entry < s8.nextId := by
    have h1 := Pto8.entry_eq
    have h2 := Pto8.nextId_le
    omega
  have Q : StPresFrom s8.nextId s8 (Stmt.codegenList body s8) := IHb s8 hC8 hWF8 hE8
  have P9 : StPresFrom s.nextId s8 s9 :=
    stPres_trans (stPres_weaken Pto8.nextId_le Q) stPres_exitScope
  have P10 : StPresFrom s.nextId s9 s10 := by
    rw [hs10]
    split
    · refine stPres_appendCurTerm ?_
      intro m hm
      have : m = s.nextId := by simpa [termTargets] using hm
      omega
    · exact stPres_refl
  have h10n : s10.nextId = s9.nextId := by
    rw [hs10]
    split <;> rfl
  have h9n : s.nextId + 3 ≤ s9.nextId := by
    have h1 := Q.nextId_le
    have h2 : (Stmt.codegenList body s8).nextId = s9.nextId := rfl
    omega
  have Pto10 : StPresFrom s.nextId s s10 :=
    stPres_trans Pto8 (stPres_trans P9 P10)
  -- predecessor-count facts
  have hw1 : wInstrs [.term (.condBr (cond.codegen s5).1 (s.nextId + 1) (s.nextId + 2))]
      (s.nextId + 2) = 1 := by
    rw [wInstrs_cons, wInstrs_nil]
    show List.count (s.nextId + 2) [s.nextId + 1, s.nextId + 2] + 0 = 1
    simp [List.count_cons]
  have hcb : 1 ≤ countIdBlocks s6 s6.cur := by
    rw [effStep_countIdBlocks hES]
    have e1 : countIdBlocks s5 s6.cur = countIdBlocks s3 s6.cur := by
      show countIdBlocks s4 s6.cur = _
      rw [hs4, countIdBlocks_appendCur]
    rw [e1, h6cur, hs3]
    rw [countIdBlocks_newBlock, countIdBlocks_newBlock, countIdBlocks_newBlock]
    have c1 : ((s.newBlock true).2).nextId = s.nextId + 1 := rfl
    have c2 : (((s.newBlock true).2.newBlock true).2).nextId = s.nextId + 2 := by
      show s.nextId + 1 + 1 = _
      omega
    rw [c1, c2]
    have hz : countIdBlocks s s.nextId = 0 := countIdBlocks_eq_zero_of_wf hWF (le_refl _)
    rw [hz]
    have d1 : ¬ (s.nextId + 1 = s.nextId) := by omega
    have d2 : ¬ (s.nextId + 2 = s.nextId) := by omega
    simp [d1, d2]
  have hpc7 : 1 ≤ predCount s7 (s.nextId + 2) := by
    rw [hs7, predCount_appendCur, hw1]
    have := hcb
    omega
  have e9 : predCount s9 (s.nextId + 2) = predCount s7 (s.nextId + 2) := by
    show predCount (Stmt.codegenList body s8) (s.nextId + 2) = _
    rw [Q.pred_lo _ (by rw [h8n]; omega)]
    rfl
  have hpc10 : 1 ≤ predCount s10 (s.nextId + 2) := by
    rw [hs10]
    split
    · rw [predCount_appendCur]
      have hw0 : wInstrs [.term (.br s.nextId)] (s.nextId + 2) = 0 := by
        rw [wInstrs_cons, wInstrs_nil]
        show List.count (s.nextId + 2) [s.nextId] + 0 = 0
        simp [List.count_cons]
      rw [hw0, e9]
      have := hpc7
      omega
    · rw [e9]
      exact hpc7
  refine ⟨?_, rfl, ?_⟩
  · refine stPres_trans Pto10 (stPres_setInsertPoint (by omega) ?_)
    rw [h10n]
    omega
  · show 1 ≤ predCount s10 (s.nextId + 2)
    exact hpc10

/-- Final step of `IfStmt::codegen`: with the merge block still empty and
unique, the attach-or-discard decision yields the attach-iff-predecessor
property, discard leaves no merge block behind, and the merge
predecessor count is unaffected either way. -/
theorem ifMergeFinal (s8 : CodeGenContext) (M : Nat) (res : CodeGenContext)
    (hres : res = if 1 ≤ predCount s8 M then (s8.attachBlock M).setInsertPoint M
      else s8.deleteBlock M)
    (hmrec : BB.mk M [] false ∈ s8.blocks)
    (hcount : countIdBlocks s8 M = 1) :
    ((∃ b ∈ res.blocks, b.id = M ∧ b.attached = true) ↔ 1 ≤ predCount res M) ∧
    (¬ 1 ≤ predCount res M → ∀ b ∈ res.blocks, b.id ≠ M) ∧
    predCount res M = predCount s8 M ∧
    (∀ base, base ≤ M → M < s8.nextId → StPresFrom base s8 res) := by
  have hEmpty : ∀ b ∈ s8.blocks, b.id = M → b.instrs = [] := by
    intro b hb hid
    have hbm := countIdBlocks_unique hcount hb hid hmrec rfl
    rw [hbm]
  by_cases hcond : 1 ≤ predCount s8 M
  · rw [hres, if_pos hcond]
    have hpres : predCount ((s8.attachBlock M).setInsertPoint M) M = predCount s8 M := by
      show predCount (s8.attachBlock M) M = _
      exact predCount_attachBlock s8 M M
    refine ⟨?_, ?_, hpres, ?_⟩
    · constructor
      · intro _
        rw [hpres]
        exact hcond
      · intro _
        refine ⟨{ BB.mk M [] false with attached := true }, ?_, rfl, rfl⟩
        show _ ∈ (s8.attachBlock M).blocks
        exact mem_attachBlock_self hmrec rfl
    · intro hn
      rw [hpres] at hn
      exact absurd hcond hn
    · intro base hbase hlt
      exact stPres_trans (stPres_attachBlock hbase) (stPres_setInsertPoint hbase hlt)
  · rw [hres, if_neg hcond]
    have hpres : predCount (s8.deleteBlock M) M = predCount s8 M :=
      predCount_deleteBlock_of_empty hEmpty M
    refine ⟨?_, ?_, hpres, ?_⟩
    · constructor
      · rintro ⟨b, hb, hid, _⟩
        exact absurd hid (mem_deleteBlock.mp hb).2
      · intro h1
        rw [hpres] at h1
        exact absurd h1 hcond
    · intro _ b hb
      exact (mem_deleteBlock.mp hb).2
    · intro base hbase _
      exact stPres_deleteBlock hbase hEmpty

/-- `IfStmt::codegen` with the three block ids spelled out. -/
theorem stmt_codegen_if_ids (cond : Expr) (thenB elseB : List Stmt)
    (s : CodeGenContext) :
    Stmt.codegen (.ifStmt cond thenB elseB) s =
    (let s0 := (cond.codegen s).2
     let s3 := (((s0.newBlock true).2.newBlock false).2.newBlock false).2
     let s4 := s3.appendCur
       (.term (.condBr (cond.codegen s).1 s0.nextId (s0.nextId + 1)))
     let s5 := (s4.setInsertPoint s0.nextId).enterScope
     let s6 := (Stmt.codegenList thenB s5).exitScope
     let s7 := if (s6.getTerm s6.cur).isNone
       then s6.appendCur (.term (.br (s0.nextId + 2))) else s6
     let s8 :=
       if elseB.isEmpty then
         ((s7.attachBlock (s0.nextId + 1)).setInsertPoint (s0.nextId + 1)).appendCur
           (.term (.br (s0.nextId + 2)))
       else
         let s9 := ((s7.attachBlock (s0.nextId + 1)).setInsertPoint
           (s0.nextId + 1)).enterScope
         let s10 := (Stmt.codegenList elseB s9).exitScope
         if (s10.getTerm s10.cur).isNone
           then s10.appendCur (.term (.br (s0.nextId + 2))) else s10
     if 1 ≤ predCount s8 (s0.nextId + 2) then
       (s8.attachBlock (s0.nextId + 2)).setInsertPoint (s0.nextId + 2)
     else s8.deleteBlock (s0.nextId + 2)) := rfl

/-- Full analysis of `IfStmt::codegen`: one generator step, plus the
merge-block facts of the attach-or-discard decision — attached iff the
final state shows at least one predecessor, always at least one
predecessor when there is no `else` body, and no merge block left behind
when it is discarded. -/
theorem ifStmtFacts (cond : Expr) (thenB elseB : List Stmt) (s : CodeGenContext)
    (hC : s.cur < s.nextId) (hWF : ∀ b ∈ s.blocks, b.id < s.nextId)
    (hE : s.entry < s.nextId)
    (IHt : ∀ t : CodeGenContext, t.cur < t.nextId →
      (∀ b ∈ t.blocks, b.id < t.nextId) → t.entry < t.nextId →
      StPresFrom t.nextId t (Stmt.codegenList thenB t))
    (IHe : ∀ t : CodeGenContext, t.cur < t.nextId →
      (∀ b ∈ t.blocks, b.id < t.nextId) → t.entry < t.nextId →
      StPresFrom t.nextId t (Stmt.codegenList elseB t)) :
    StPresFrom s.nextId s (Stmt.codegen (.ifStmt cond thenB elseB) s) ∧
    ((∃ b ∈ (Stmt.codegen (.ifStmt cond thenB elseB) s).blocks,
        b.id = s.nextId + 2 ∧ b.attached = true) ↔
      1 ≤ predCount (Stmt.codegen (.ifStmt cond thenB elseB) s) (s.nextId + 2)) ∧
    (elseB = [] →
      1 ≤ predCount (Stmt.codegen (.ifStmt cond thenB elseB) s) (s.nextId + 2)) ∧
    (¬ 1 ≤ predCount (Stmt.codegen (.ifStmt cond thenB elseB) s) (s.nextId + 2) →
      ∀ b ∈ (Stmt.codegen (.ifStmt cond thenB elseB) s).blocks,
        b.id ≠ s.nextId + 2) := by
  rw [stmt_codegen_if_ids]
  dsimp only
  set s0 := (cond.codegen s).2 with hs0
  have hES0 : EffStep s s0 := exprEffects cond s
  have h0spec := effStep_spec hES0
  have h0n : s0.nextId = s.nextId := h0spec.2.2.1
  have h0cur : s0.cur = s.cur := h0spec.1
  have h0ent : s0.entry = s.entry := h0spec.2.1
  set s3 := (((s0.newBlock true).2.newBlock false).2.newBlock false).2 with hs3
  set s4 := s3.appendCur
    (.term (.condBr (cond.codegen s).1 s0.nextId (s0.nextId + 1))) with hs4
  set s5 := (s4.setInsertPoint s0.nextId).enterScope with hs5
  set s6 := (Stmt.codegenList thenB s5).exitScope with hs6
  set s7 := (if (s6.getTerm s6.cur).isNone
    then s6.appendCur (.term (.br (s0.nextId + 2))) else s6) with hs7
  set s9 := ((s7.attachBlock (s0.nextId + 1)).setInsertPoint
    (s0.nextId + 1)).enterScope with hs9
  set s10 := (Stmt.codegenList elseB s9).exitScope with hs10
  set s8 := (if elseB.isEmpty then
      ((s7.attachBlock (s0.nextId + 1)).setInsertPoint (s0.nextId + 1)).appendCur
        (.term (.br (s0.nextId + 2)))
    else
      if (s10.getTerm s10.cur).isNone
        then s10.appendCur (.term (.br (s0.nextId + 2))) else s10) with hs8
  set res := (if 1 ≤ predCount s8 (s0.nextId + 2) then
      (s8.attachBlock (s0.nextId + 2)).setInsertPoint (s0.nextId + 2)
    else s8.deleteBlock (s0.nextId + 2)) with hres
  have h3n : s3.nextId = s.nextId + 3 := by
    show s0.nextId + 1 + 1 + 1 = _
    omega
  have h4cur : s4.cur = s.cur := by
    show s0.cur = s.cur
    exact h0cur
  have h5ent : s5.entry = s.entry := by
    show s0.entry = s.entry
    exact h0ent
  have h5n : s5.nextId = s.nextId + 3 := h3n
  have P0 : StPresFrom s.nextId s s0 := effStep_stPres hES0
  have P3 : StPresFrom s.nextId s0 s3 := by
    refine stPres_trans (stPres_trans (stPres_newBlock ?_) (stPres_newBlock ?_))
      (stPres_newBlock ?_)
    · omega
    · show s.nextId ≤ s0.nextId + 1
      omega
    · show s.nextId ≤ s0.nextId + 1 + 1
      omega
  have P4 : StPresFrom s.nextId s3 s4 := by
    refine stPres_appendCurTerm ?_
    intro m hm
    have : m = s0.nextId ∨ m = s0.nextId + 1 := by simpa [termTargets] using hm
    omega
  have P5 : StPresFrom s.nextId s4 s5 := by
    refine stPres_trans (stPres_setInsertPoint (by omega) ?_) stPres_enterScope
    show s0.nextId < s3.nextId
    rw [h3n]
    omega
  have Pto5 : StPresFrom s.nextId s s5 :=
    stPres_trans P0 (stPres_trans P3 (stPres_trans P4 P5))
  have hC5 : s5.cur < s5.nextId := by
    show s0.nextId < s5.nextId
    rw [h5n]
    omega
  have hWF5 := Pto5.wf_blocks hWF
  have hE5 : s5.entry < s5.nextId := by
    rw [h5ent, h5n]
    omega
  have Qt : StPresFrom s5.nextId s5 (Stmt.codegenList thenB s5) := IHt s5 hC5 hWF5 hE5
  have P6 : StPresFrom s.nextId s5 s6 :=
    stPres_trans (stPres_weaken Pto5.nextId_le Qt) stPres_exitScope
  have h6nge : s.nextId + 3 ≤ s6.nextId := by
    have h1 := Qt.nextId_le
    have h2 : (Stmt.codegenList thenB s5).nextId = s6.nextId := rfl
    rw [h5n] at h1
    omega
  have h6curne : s0.nextId + 2 ≠ s6.cur := by
    have h1 : s6.cur = s5.cur ∨ s5.nextId ≤ s6.cur := Qt.cur_or
    rcases h1 with h | h
    · have h2 : s6.cur = s0.nextId := h
      omega
    · rw [h5n] at h
      omega
  have P7 : StPresFrom s.nextId s6 s7 := by
    rw [hs7]
    split
    · refine stPres_appendCurTerm ?_
      intro m hm
      have : m = s0.nextId + 2 := by simpa [termTargets] using hm
      omega
    · exact stPres_refl
  have h7n : s7.nextId = s6.nextId := by
    rw [hs7]
    split <;> rfl
  have h7nge : s.nextId + 3 ≤ s7.nextId := by omega
  have Pto7 : StPresFrom s.nextId s s7 :=
    stPres_trans Pto5 (stPres_trans P6 P7)
  have hmrec3 : BB.mk (s0.nextId + 2) [] false ∈ s3.blocks := by
    have c2 : ((s0.newBlock true).2.newBlock false).2.nextId = s0.nextId + 2 := by
      show s0.nextId + 1 + 1 = _
      omega
    have h := mem_newBlock_new (((s0.newBlock true).2.newBlock false).2) false
    rw [c2] at h
    exact h
  have hmrec4 : BB.mk (s0.nextId + 2) [] false ∈ s4.blocks := by
    refine mem_appendCur_ne hmrec3 ?_
    show s0.nextId + 2 ≠ s3.cur
    have h1 : s3.cur = s.cur := h4cur
    omega
  have hmrec6 : BB.mk (s0.nextId + 2) [] false ∈ s6.blocks := by
    have h5blocks : BB.mk (s0.nextId + 2) [] false ∈ s5.blocks := hmrec4
    have h := Qt.old_blocks (BB.mk (s0.nextId + 2) [] false) h5blocks ?_ ?_ ?_
    · exact h
    · show s0.nextId + 2 < s5.nextId
      rw [h5n]
      omega
    · show s0.nextId + 2 ≠ s5.entry
      rw [h5ent]
      omega
    · show s0.nextId + 2 ≠ s0.nextId
      omega
  have hmrec7 : BB.mk (s0.nextId + 2) [] false ∈ s7.blocks := by
    rw [hs7]
    split
    · exact mem_appendCur_ne hmrec6 h6curne
    · exact hmrec6
  have hcount0 : ∀ m, s.nextId ≤ m → countIdBlocks s0 m = 0 := by
    intro m hm
    rw [effStep_countIdBlocks hES0]
    exact countIdBlocks_eq_zero_of_wf hWF hm
  have hcount3 : ∀ m, countIdBlocks s3 m = countIdBlocks s0 m
      + (if s0.nextId = m then 1 else 0) + (if s0.nextId + 1 = m then 1 else 0)
      + (if s0.nextId + 2 = m then 1 else 0) := by
    intro m
    rw [hs3, countIdBlocks_newBlock, countIdBlocks_newBlock, countIdBlocks_newBlock]
    have c1 : ((s0.newBlock true).2).nextId = s0.nextId + 1 := rfl
    have c2 : (((s0.newBlock true).2.newBlock false).2).nextId = s0.nextId + 2 := by
      show s0.nextId + 1 + 1 = _
      omega
    rw [c1, c2]
  have hcount7 : ∀ m, m < s.nextId + 3 → countIdBlocks s7 m = countIdBlocks s3 m := by
    intro m hm
    have e7 : countIdBlocks s7 m = countIdBlocks s6 m := by
      rw [hs7]
      split
      · exact countIdBlocks_appendCur s6 _ m
      · rfl
    have e6 : countIdBlocks s6 m = countIdBlocks s5 m := by
      show countIdBlocks (Stmt.codegenList thenB s5) m = _
      exact Qt.count_lo m (by rw [h5n]; omega)
    have e5 : countIdBlocks s5 m = countIdBlocks s3 m := by
      show countIdBlocks s4 m = _
      rw [hs4]
      exact countIdBlocks_appendCur s3 _ m
    rw [e7, e6, e5]
  have hcntM7 : countIdBlocks s7 (s0.nextId + 2) = 1 := by
    rw [hcount7 _ (by omega), hcount3, hcount0 _ (by omega)]
    have d1 : ¬ (s0.nextId = s0.nextId + 2) := by omega
    have d2 : ¬ (s0.nextId + 1 = s0.nextId + 2) := by omega
    simp [d1, d2]
  have hcntE7 : countIdBlocks s7 (s0.nextId + 1) = 1 := by
    rw [hcount7 _ (by omega), hcount3, hcount0 _ (by omega)]
    have d1 : ¬ (s0.nextId = s0.nextId + 1) := by omega
    have d2 : ¬ (s0.nextId + 2 = s0.nextId + 1) := by omega
    simp [d1, d2]
  by_cases hEmp : elseB.isEmpty = true
  · have hs8e : s8 = ((s7.attachBlock (s0.nextId + 1)).setInsertPoint
        (s0.nextId + 1)).appendCur (.term (.br (s0.nextId + 2))) := by
      rw [hs8, if_pos hEmp]
    have P8 : StPresFrom s.nextId s7 s8 := by
      rw [hs8e]
      refine stPres_trans (stPres_attachBlock (by omega))
        (stPres_trans (stPres_setInsertPoint (by omega) ?_)
          (stPres_appendCurTerm ?_))
      · show s0.nextId + 1 < s7.nextId
        omega
      · intro m hm
        have : m = s0.nextId + 2 := by simpa [termTargets] using hm
        omega
    have hmrec8 : BB.mk (s0.nextId + 2) [] false ∈ s8.blocks := by
      rw [hs8e]
      refine mem_appendCur_ne (mem_attachBlock_ne hmrec7 (by
        show s0.nextId + 2 ≠ s0.nextId + 1
        omega)) ?_
      show s0.nextId + 2 ≠ s0.nextId + 1
      omega
    have hcnt8 : countIdBlocks s8 (s0.nextId + 2) = 1 := by
      rw [hs8e, countIdBlocks_appendCur]
      show countIdBlocks (s7.attachBlock (s0.nextId + 1)) (s0.nextId + 2) = 1
      rw [countIdBlocks_attachBlock]
      exact hcntM7
    have hpc8 : 1 ≤ predCount s8 (s0.nextId + 2) := by
      rw [hs8e, predCount_appendCur]
      have hw : wInstrs [.term (.br (s0.nextId + 2))] (s0.nextId + 2) = 1 := by
        rw [wInstrs_cons, wInstrs_nil]
        show List.count (s0.nextId + 2) [s0.nextId + 2] + 0 = 1
        simp
      rw [hw]
      have hcb : countIdBlocks ((s7.attachBlock (s0.nextId + 1)).setInsertPoint
          (s0.nextId + 1)) (s0.nextId + 1) = 1 := by
        show countIdBlocks (s7.attachBlock (s0.nextId + 1)) (s0.nextId + 1) = 1
        rw [countIdBlocks_attachBlock]
        exact hcntE7
      show 1 ≤ predCount ((s7.attachBlock (s0.nextId + 1)).setInsertPoint
          (s0.nextId + 1)) (s0.nextId + 2) +
        countIdBlocks ((s7.attachBlock (s0.nextId + 1)).setInsertPoint
          (s0.nextId + 1)) (s0.nextId + 1) * 1
      rw [hcb]
      omega
    have h8nge : s0.nextId + 2 < s8.nextId := by
      have e : s8.nextId = s7.nextId := by rw [hs8e]; rfl
      omega
    have hfin := ifMergeFinal s8 (s0.nextId + 2) res hres hmrec8 hcnt8
    have PresFin : StPresFrom s.nextId s8 res :=
      hfin.2.2.2 s.nextId (by omega) h8nge
    have Pres : StPresFrom s.nextId s res :=
      stPres_trans Pto7 (stPres_trans P8 PresFin)
    rw [h0n] at hfin hpc8
    refine ⟨Pres, hfin.1, fun _ => ?_, hfin.2.1⟩
    rw [hfin.2.2.1]
    exact hpc8
  · have hs8e : s8 = if (s10.getTerm s10.cur).isNone
        then s10.appendCur (.term (.br (s0.nextId + 2))) else s10 := by
      rw [hs8, if_neg hEmp]
    have P9 : StPresFrom s.nextId s7 s9 := by
      rw [hs9]
      refine stPres_trans (stPres_attachBlock (by omega))
        (stPres_trans (stPres_setInsertPoint (by omega) ?_) stPres_enterScope)
      show s0.nextId + 1 < s7.nextId
      omega
    have h9n : s9.nextId = s7.nextId := rfl
    have h9cur : s9.cur = s0.nextId + 1 := rfl
    have h9ent : s9.entry = s.entry := by
      have e1 : s7.entry = s6.entry := by
        rw [hs7]
        split <;> rfl
      have e2 : s6.entry = s5.entry := Qt.entry_eq
      show s7.entry = s.entry
      rw [e1, e2, h5ent]
    have hC9 : s9.cur < s9.nextId := by
      rw [h9cur, h9n]
      omega
    have Pto9 : StPresFrom s.nextId s s9 := stPres_trans Pto7 P9
    have hWF9 := Pto9.wf_blocks hWF
    have hE9 : s9.entry < s9.nextId := by
      rw [h9ent, h9n]
      omega
    have Qe : StPresFrom s9.nextId s9 (Stmt.codegenList elseB s9) := IHe s9 hC9 hWF9 hE9
    have P10 : StPresFrom s.nextId s9 s10 :=
      stPres_trans (stPres_weaken (by rw [h9n]; omega) Qe) stPres_exitScope
    have h10curne : s0.nextId + 2 ≠ s10.cur := by
      have h1 : s10.cur = s9.cur ∨ s9.nextId ≤ s10.cur := Qe.cur_or
      rcases h1 with h | h
      · have h2 : s10.cur = s0.nextId + 1 := h
        omega
      · rw [h9n] at h
        omega
    have P8 : StPresFrom s.nextId s10 s8 := by
      rw [hs8e]
      split
      · refine stPres_appendCurTerm ?_
        intro m hm
        have : m = s0.nextId + 2 := by simpa [termTargets] using hm
        omega
      · exact stPres_refl
    have hmrec9 : BB.mk (s0.nextId + 2) [] false ∈ s9.blocks :=
      mem_attachBlock_ne hmrec7 (by
        show s0.nextId + 2 ≠ s0.nextId + 1
        omega)
    have hmrec10 : BB.mk (s0.nextId + 2) [] false ∈ s10.blocks := by
      have h := Qe.old_blocks (BB.mk (s0.nextId + 2) [] false) hmrec9 ?_ ?_ ?_
      · exact h
      · show s0.nextId + 2 < s9.nextId
        rw [h9n]
        omega
      · show s0.nextId + 2 ≠ s9.entry
        rw [h9ent]
        omega
      · show s0.nextId + 2 ≠ s9.cur
        rw [h9cur]
        omega
    have hmrec8 : BB.mk (s0.nextId + 2) [] false ∈ s8.blocks := by
      rw [hs8e]
      split
      · exact mem_appendCur_ne hmrec10 h10curne
      · exact hmrec10
    have hcnt8 : countIdBlocks s8 (s0.nextId + 2) = 1 := by
      have e8 : countIdBlocks s8 (s0.nextId + 2) = countIdBlocks s10 (s0.nextId + 2) := by
        rw [hs8e]
        split
        · exact countIdBlocks_appendCur s10 _ _
        · rfl
      have e10 : countIdBlocks s10 (s0.nextId + 2) = countIdBlocks s9 (s0.nextId + 2) := by
        show countIdBlocks (Stmt.codegenList elseB s9) (s0.nextId + 2) = _
        exact Qe.count_lo _ (by rw [h9n]; omega)
      have e9c : countIdBlocks s9 (s0.nextId + 2) = countIdBlocks s7 (s0.nextId + 2) := by
        show countIdBlocks (s7.attachBlock (s0.nextId + 1)) (s0.nextId + 2) = _
        rw [countIdBlocks_attachBlock]
      rw [e8, e10, e9c]
      exact hcntM7
    have h8nge : s0.nextId + 2 < s8.nextId := by
      have e : s8.nextId = s10.nextId := by
        rw [hs8e]
        split <;> rfl
      have h1 : s9.nextId ≤ s10.nextId := Qe.nextId_le
      omega
    have hfin := ifMergeFinal s8 (s0.nextId + 2) res hres hmrec8 hcnt8
    have PresFin : StPresFrom s.nextId s8 res :=
      hfin.2.2.2 s.nextId (by omega) h8nge
    have Pres : StPresFrom s.nextId s res :=
      stPres_trans Pto9 (stPres_trans P10 (stPres_trans P8 PresFin))
    rw [h0n] at hfin
    refine ⟨Pres, hfin.1, fun hEl => ?_, hfin.2.1⟩
    rw [hEl] at hEmp
    exact absurd rfl hEmp

mutual

/-- Every statement generator is one preservation step relative to the
pre-state's block-id counter: old blocks (other than the entry and
insertion blocks) survive untouched, predecessor counts and id
multiplicities of pre-existing ids are unchanged, and the id counter,
entry block and insertion point evolve as described by `StPresFrom`. -/
theorem stmtGen : ∀ (st : Stmt) (s : CodeGenContext), s.cur < s.nextId →
    (∀ b ∈ s.blocks, b.id < s.nextId) → s.entry < s.nextId →
    StPresFrom s.nextId s (Stmt.codegen st s)
  | .letStmt ty n v, s => fun _ _ _ => by
    rw [stmt_codegen_let_eq]
    split
    · exact stPres_refl
    · rename_i lty hty
      split
      rename_i av s1 hca
      have PC : StPresFrom s.nextId s s1 := by
        have h := (stPres_createAlloca :
          StPresFrom s.nextId s (s.createAlloca n lty).2)
        rw [hca] at h
        exact h
      split
      · exact stPres_trans PC stPres_appendCurInstr
      · split
        rename_i v1 s2 hv
        have PE : StPresFrom s.nextId s1 s2 :=
          effStep_stPres (effStep_codegen_eq (fun st => exprEffects v st) hv)
        cases v1 with
        | none => exact stPres_trans PC PE
        | some w =>
          exact stPres_trans PC (stPres_trans PE stPres_appendCurInstr)
  | .returnStmt e?, s => fun _ _ _ => by
    rw [stmt_codegen_return_eq]
    cases e? with
    | none =>
      refine stPres_appendCurTerm ?_
      intro m hm
      exact absurd hm (List.not_mem_nil m)
    | some e =>
      dsimp only
      refine stPres_trans (effStep_stPres (exprEffects e s)) ?_
      refine stPres_appendCurTerm ?_
      intro m hm
      exact absurd hm (List.not_mem_nil m)
  | .exprStmt e, s => fun _ _ _ => effStep_stPres (exprEffects e s)
  | .ifStmt cond thenB elseB, s => fun hC hWF hE =>
    (ifStmtFacts cond thenB elseB s hC hWF hE
      (fun t h1 h2 h3 => stmtGenList thenB t h1 h2 h3)
      (fun t h1 h2 h3 => stmtGenList elseB t h1 h2 h3)).1
  | .whileStmt cond body, s => fun hC hWF hE =>
    (whileStmtFacts cond body s hC hWF hE
      (fun t h1 h2 h3 => stmtGenList body t h1 h2 h3)).1

/-- Statement sequences compose the per-statement preservation steps. -/
theorem stmtGenList : ∀ (l : List Stmt) (s : CodeGenContext), s.cur < s.nextId →
    (∀ b ∈ s.blocks, b.id < s.nextId) → s.entry < s.nextId →
    StPresFrom s.nextId s (Stmt.codegenList l s)
  | [], _ => fun _ _ _ => stPres_refl
  | st :: rest, s => fun hC hWF hE => by
    rw [stmt_codegenList_cons_eq]
    have h1 := stmtGen st s hC hWF hE
    have hC2 := h1.cur_lt hC
    have hWF2 := h1.wf_blocks hWF
    have hE2 : (st.codegen s).entry < (st.codegen s).nextId := by
      have e1 := h1.entry_eq
      have e2 := h1.nextId_le
      omega
    have h2 := stmtGenList rest (st.codegen s) hC2 hWF2 hE2
    exact stPres_trans h1 (stPres_weaken h1.nextId_le h2)

end


/-! ### Terminator lookup after appending, and scope-table lemmas -/

theorem find_blocksAppend_self (l : List BB) (c : Nat) (added : List BInstr) :
    (blocksAppend l c added).find? (fun b => b.id = c) =
      (l.find? (fun b => b.id = c)).map
        (fun b => { b with instrs := b.instrs ++ added }) := by
  induction l with
  | nil => rfl
  | cons b rest ih =>
    rw [blocksAppend_cons]
    by_cases hb : b.id = c
    · rw [if_pos hb]
      rw [List.find?_cons_of_pos _ (by simp [hb]), List.find?_cons_of_pos _ (by simp [hb])]
      rfl
    · rw [if_neg hb]
      rw [List.find?_cons_of_neg _ (by simp [hb]), List.find?_cons_of_neg _ (by simp [hb])]
      exact ih

/-- Appending a terminator at the insertion point makes it the
`getTerminator` of that block, provided the block exists. -/
theorem getTerm_appendCur_term (s : CodeGenContext) (t : Terminator)
    (hex : (s.blocks.find? (fun b => b.id = s.cur)).isSome = true) :
    (s.appendCur (.term t)).getTerm s.cur = some t := by
  obtain ⟨b, hb⟩ := Option.isSome_iff_exists.mp hex
  show (match (blocksAppend s.blocks s.cur [.term t]).find? (fun b => b.id = s.cur) with
    | some b => (match b.instrs.getLast? with
      | some (.term t) => some t
      | _ => none)
    | none => none) = some t
  rw [find_blocksAppend_self, hb]
  dsimp only [Option.map]
  rw [List.getLast?_concat]

theorem tblGet_tblSet {α : Type} (q k : String) (v : α) (l : List (String × α)) :
    tblGet q (tblSet k v l) = if k = q then some v else tblGet q l := by
  induction l with
  | nil =>
    show (if k = q then some v else tblGet q []) = _
    rfl
  | cons p rest ih =>
    obtain ⟨k', v'⟩ := p
    show tblGet q (if k' = k then (k, v) :: rest else (k', v') :: tblSet k v rest) = _
    by_cases h1 : k' = k
    · rw [if_pos h1]
      show (if k = q then some v else tblGet q rest) = _
      by_cases h2 : k = q
      · rw [if_pos h2, if_pos h2]
      · rw [if_neg h2, if_neg h2]
        show _ = tblGet q ((k', v') :: rest)
        show _ = if k' = q then some v' else tblGet q rest
        have h3 : ¬ k' = q := by rw [h1]; exact h2
        rw [if_neg h3]
    · rw [if_neg h1]
      show (if k' = q then some v' else tblGet q (tblSet k v rest)) = _
      rw [ih]
      by_cases h2 : k' = q
      · have h3 : ¬ k = q := by
          intro h4
          exact h1 (h4 ▸ h2)
        rw [if_pos h2, if_neg h3]
        show _ = if k' = q then some v' else tblGet q rest
        rw [if_pos h2]
      · rw [if_neg h2]
        by_cases h3 : k = q
        · rw [if_pos h3, if_pos h3]
        · rw [if_neg h3, if_neg h3]
          show _ = if k' = q then some v' else tblGet q rest
          rw [if_neg h2]

theorem frameSearch_cons {α : Type} (k : String) (f : List (String × α))
    (rest : List (List (String × α))) :
    frameSearch k (f :: rest) =
      (match tblGet k f with
       | some v => some v
       | none => frameSearch k rest) := rfl

theorem frameSearch_tblSet_isSome {α : Type} {q k : String} {v : α}
    {f : List (String × α)} {rest : List (List (String × α))}
    (h : (frameSearch q (f :: rest)).isSome = true) :
    (frameSearch q (tblSet k v f :: rest)).isSome = true := by
  rw [frameSearch_cons] at h ⊢
  rw [tblGet_tblSet]
  by_cases h1 : k = q
  · rw [if_pos h1]
    rfl
  · rw [if_neg h1]
    exact h

theorem frameSearch_tblSet_self_isSome {α : Type} (k : String) (v : α)
    (f : List (String × α)) (rest : List (List (String × α))) :
    (frameSearch k (tblSet k v f :: rest)).isSome = true := by
  rw [frameSearch_cons, tblGet_tblSet, if_pos rfl]
  rfl

/-- `getLLVMType` depends on the state only through the struct table. -/
theorem getLLVMType_congr {s s' : CodeGenContext}
    (h : s.llvm_struct_types = s'.llvm_struct_types) :
    ∀ ty, s.getLLVMType ty = s'.getLLVMType ty := by
  intro ty
  induction ty with
  | pointer e ih => show (s.getLLVMType e).map _ = (s'.getLLVMType e).map _; rw [ih]
  | array n e ih => show (s.getLLVMType e).map _ = (s'.getLLVMType e).map _; rw [ih]
  | structT n => show tblGet n s.llvm_struct_types = tblGet n s'.llvm_struct_types; rw [h]
  | _ => rfl

/-! ### Parameter recording -/

theorem paramLoop_nil (s : CodeGenContext) : paramLoop [] s = s := rfl

theorem paramLoop_cons (pty : Ty) (pname : String) (rest : List (Ty × String))
    (s : CodeGenContext) :
    paramLoop ((pty, pname) :: rest) s =
    (match s.getLLVMType pty with
     | none => paramLoop rest s
     | some lty =>
       let (argv, s0) := s.freshVal lty
       let (av, s1) := s0.createAlloca pname lty
       let s2 := s1.appendCur (.instr (.store argv av))
       let s3 := s2.setValue pname argv
       paramLoop rest s3) := rfl

theorem getAlloca_createAlloca_isSome {s : CodeGenContext} {n name : String}
    {ty : LLVMType} (h : (s.getAlloca n).isSome = true) :
    (((s.createAlloca name ty).2).getAlloca n).isSome = true := by
  show (frameSearch n (match s.alloca_table with
    | f :: rest => tblSet name (s.fresh, ty) f :: rest
    | [] => [[(name, (s.fresh, ty))]])).isSome = true
  rcases htbl : s.alloca_table with _ | ⟨f, rest⟩
  · have h2 : (s.getAlloca n).isSome = true := h
    show (frameSearch n [[(name, (s.fresh, ty))]]).isSome = true
    rw [show s.getAlloca n = frameSearch n s.alloca_table from rfl, htbl] at h2
    exact nomatch h2
  · have h2 : (frameSearch n (f :: rest)).isSome = true := by
      rw [show s.getAlloca n = frameSearch n s.alloca_table from rfl, htbl] at h
      exact h
    exact frameSearch_tblSet_isSome h2

theorem getAlloca_createAlloca_self (s : CodeGenContext) (name : String)
    (ty : LLVMType) :
    (((s.createAlloca name ty).2).getAlloca name).isSome = true := by
  show (frameSearch name (match s.alloca_table with
    | f :: rest => tblSet name (s.fresh, ty) f :: rest
    | [] => [[(name, (s.fresh, ty))]])).isSome = true
  rcases s.alloca_table with _ | ⟨f, rest⟩
  · rw [frameSearch_cons]
    simp [tblGet]
  · exact frameSearch_tblSet_self_isSome name (s.fresh, ty) f rest

theorem getValue_setValue_isSome {s : CodeGenContext} {n name : String} {v : Val}
    (h : (s.getValue n).isSome = true) :
    ((s.setValue name v).getValue n).isSome = true := by
  show (frameSearch n (match s.value_table with
    | f :: rest => tblSet name v f :: rest
    | [] => [[(name, v)]])).isSome = true
  rcases htbl : s.value_table with _ | ⟨f, rest⟩
  · have h2 : (s.getValue n).isSome = true := h
    rw [show s.getValue n = frameSearch n s.value_table from rfl, htbl] at h2
    exact nomatch h2
  · have h2 : (frameSearch n (f :: rest)).isSome = true := by
      rw [show s.getValue n = frameSearch n s.value_table from rfl, htbl] at h
      exact h
    exact frameSearch_tblSet_isSome h2

theorem getValue_setValue_self (s : CodeGenContext) (name : String) (v : Val) :
    ((s.setValue name v).getValue name).isSome = true := by
  show (frameSearch name (match s.value_table with
    | f :: rest => tblSet name v f :: rest
    | [] => [[(name, v)]])).isSome = true
  rcases s.value_table with _ | ⟨f, rest⟩
  · rw [frameSearch_cons]
    simp [tblGet]
  · exact frameSearch_tblSet_self_isSome name v f rest

theorem paramLoop_alloca_mono : ∀ (ps : List (Ty × String)) (s : CodeGenContext)
    (n : String), (s.getAlloca n).isSome = true →
    ((paramLoop ps s).getAlloca n).isSome = true
  | [], _, _ => fun h => h
  | (pty, pname) :: rest, s, n => fun h => by
    rw [paramLoop_cons]
    cases hty : s.getLLVMType pty with
    | none => exact paramLoop_alloca_mono rest s n h
    | some lty =>
      dsimp only
      refine paramLoop_alloca_mono rest _ n ?_
      exact getAlloca_createAlloca_isSome
        (show (((s.freshVal lty).2).getAlloca n).isSome = true from h)

theorem paramLoop_value_mono : ∀ (ps : List (Ty × String)) (s : CodeGenContext)
    (n : String), (s.getValue n).isSome = true →
    ((paramLoop ps s).getValue n).isSome = true
  | [], _, _ => fun h => h
  | (pty, pname) :: rest, s, n => fun h => by
    rw [paramLoop_cons]
    cases hty : s.getLLVMType pty with
    | none => exact paramLoop_value_mono rest s n h
    | some lty =>
      dsimp only
      refine paramLoop_value_mono rest _ n ?_
      refine getValue_setValue_isSome ?_
      show (((s.freshVal lty).2.createAlloca pname lty).2.getValue n).isSome = true
      have e : ((s.freshVal lty).2.createAlloca pname lty).2.value_table
          = s.value_table := rfl
      show (frameSearch n ((s.freshVal lty).2.createAlloca pname lty).2.value_table).isSome = true
      rw [e]
      exact h

theorem getLLVMType_isSome_of_eq_structs {s s' : CodeGenContext} {ty : Ty}
    (hh : (s.getLLVMType ty).isSome = true)
    (h : s'.llvm_struct_types = s.llvm_struct_types) :
    (s'.getLLVMType ty).isSome = true := by
  rw [getLLVMType_congr h ty]
  exact hh

theorem paramLoop_records_param : ∀ (ps : List (Ty × String)) (s : CodeGenContext)
    (pty : Ty) (pname : String), (pty, pname) ∈ ps →
    (∀ q ∈ ps, (s.getLLVMType q.1).isSome = true) →
    ((paramLoop ps s).getAlloca pname).isSome = true ∧
    ((paramLoop ps s).getValue pname).isSome = true
  | [], _, _, _ => fun hmem _ => absurd hmem (List.not_mem_nil _)
  | (qty, qname) :: rest, s, pty, pname => fun hmem hty => by
    have hq := hty (qty, qname) (List.mem_cons_self _ _)
    obtain ⟨lty, hlty⟩ := Option.isSome_iff_exists.mp hq
    rw [paramLoop_cons, hlty]
    dsimp only
    rcases List.mem_cons.mp hmem with heq | hmem'
    · have h2 : pname = qname := congrArg Prod.snd heq
      subst h2
      constructor
      · refine paramLoop_alloca_mono rest _ pname ?_
        show ((((s.freshVal lty).2.createAlloca pname lty).2).getAlloca pname).isSome = true
        exact getAlloca_createAlloca_self _ pname lty
      · refine paramLoop_value_mono rest _ pname ?_
        exact getValue_setValue_self _ pname _
    · exact paramLoop_records_param rest _ pty pname hmem'
        (fun q hq2 => getLLVMType_isSome_of_eq_structs
          (hty q (List.mem_cons_of_mem _ hq2)) rfl)

/-! ### Claim C1 (corrected) -/

/-- C1 counterexample: the original claim is refuted — an `f16` return type gets no
synthesized return — the `default_value` switch has no `F16` case — so
the insertion block is left unterminated, while `f32` does get its zero
returned. -/
theorem c1_counterexample_f16_not_synthesized :
    (FunctionDecl.codegen ⟨"g", [], .f16, [], true⟩ CodeGenContext.init).getTerm
      (FunctionDecl.codegen ⟨"g", [], .f16, [], true⟩ CodeGenContext.init).cur = none ∧
    (FunctionDecl.codegen ⟨"g2", [], .f32, [], true⟩ CodeGenContext.init).getTerm
      (FunctionDecl.codegen ⟨"g2", [], .f32, [], true⟩ CodeGenContext.init).cur =
      some (.ret (some (.constFP 32 .zero))) :=
  ⟨rfl, rfl⟩

/-- C1 (amended): when the insertion block lacks a terminator after
the body, the generator synthesizes a `ret` of the zero value of the
return type for the five integer types and for `f32`/`f64`; for `f16`
and for aggregate (struct/array) and pointer return types nothing is
synthesized and the block stays unterminated. -/
theorem c1_default_return_synthesis (fd : FunctionDecl) (s : CodeGenContext)
    (hterm : (Stmt.codegenList fd.body (fd.codegenSetup s)).getTerm
      (Stmt.codegenList fd.body (fd.codegenSetup s)).cur = none)
    (hex : ((Stmt.codegenList fd.body (fd.codegenSetup s)).blocks.find?
      (fun b => b.id = (Stmt.codegenList fd.body (fd.codegenSetup s)).cur)).isSome
      = true) :
    (fd.return_type = .i1 → (fd.codegen s).getTerm (fd.codegen s).cur
      = some (.ret (some (.constInt 1 0)))) ∧
    (fd.return_type = .i8 → (fd.codegen s).getTerm (fd.codegen s).cur
      = some (.ret (some (.constInt 8 0)))) ∧
    (fd.return_type = .i16 → (fd.codegen s).getTerm (fd.codegen s).cur
      = some (.ret (some (.constInt 16 0)))) ∧
    (fd.return_type = .i32 → (fd.codegen s).getTerm (fd.codegen s).cur
      = some (.ret (some (.constInt 32 0)))) ∧
    (fd.return_type = .i64 → (fd.codegen s).getTerm (fd.codegen s).cur
      = some (.ret (some (.constInt 64 0)))) ∧
    (fd.return_type = .f32 → (fd.codegen s).getTerm (fd.codegen s).cur
      = some (.ret (some (.constFP 32 .zero)))) ∧
    (fd.return_type = .f64 → (fd.codegen s).getTerm (fd.codegen s).cur
      = some (.ret (some (.constFP 64 .zero)))) ∧
    (fd.return_type = .f16 → (fd.codegen s).getTerm (fd.codegen s).cur = none) ∧
    (∀ n, fd.return_type = .structT n →
      (fd.codegen s).getTerm (fd.codegen s).cur = none) ∧
    (∀ n e, fd.return_type = .array n e →
      (fd.codegen s).getTerm (fd.codegen s).cur = none) ∧
    (∀ e, fd.return_type = .pointer e →
      (fd.codegen s).getTerm (fd.codegen s).cur = none) := by
  have hcond : ((Stmt.codegenList fd.body (fd.codegenSetup s)).getTerm
      (Stmt.codegenList fd.body (fd.codegenSetup s)).cur).isNone = true := by
    rw [hterm]
    rfl
  have hres : fd.codegen s =
      (match fd.return_type with
       | .void => (Stmt.codegenList fd.body (fd.codegenSetup s)).appendCur
           (.term .retVoid)
       | _ =>
         (match defaultReturnValue fd.return_type with
          | some v => (Stmt.codegenList fd.body (fd.codegenSetup s)).appendCur
              (.term (.ret (some v)))
          | none => Stmt.codegenList fd.body (fd.codegenSetup s))).exitScope := by
    unfold FunctionDecl.codegen
    dsimp only
    rw [if_pos hcond]
  refine ⟨?_, ?_, ?_, ?_, ?_, ?_, ?_, ?_, ?_, ?_, ?_⟩
  · intro h
    rw [hres, h]
    exact getTerm_appendCur_term _ _ hex
  · intro h
    rw [hres, h]
    exact getTerm_appendCur_term _ _ hex
  · intro h
    rw [hres, h]
    exact getTerm_appendCur_term _ _ hex
  · intro h
    rw [hres, h]
    exact getTerm_appendCur_term _ _ hex
  · intro h
    rw [hres, h]
    exact getTerm_appendCur_term _ _ hex
  · intro h
    rw [hres, h]
    exact getTerm_appendCur_term _ _ hex
  · intro h
    rw [hres, h]
    exact getTerm_appendCur_term _ _ hex
  · intro h
    rw [hres, h]
    exact hterm
  · intro n h
    rw [hres, h]
    exact hterm
  · intro n e h
    rw [hres, h]
    exact hterm
  · intro e h
    rw [hres, h]
    exact hterm

theorem c1_default_return_synthesis_witness :
    (FunctionDecl.codegen ⟨"h", [], .i32, [], true⟩ CodeGenContext.init).getTerm
      (FunctionDecl.codegen ⟨"h", [], .i32, [], true⟩ CodeGenContext.init).cur
      = some (.ret (some (.constInt 32 0))) :=
  (c1_default_return_synthesis ⟨"h", [], .i32, [], true⟩ CodeGenContext.init
    rfl rfl).2.2.2.1 rfl

/-! ### Claim C2 (corrected) -/

/-- C2 counterexample: the original claim is refuted — after `FunctionDecl::codegen` records a
parameter, the name has BOTH an alloca entry and an SSA-value entry. -/
theorem c2_counterexample_param_in_both_tables :
    ((FunctionDecl.codegenSetup ⟨"f", [(.i32, "a")], .i32, [], true⟩
      CodeGenContext.init).getAlloca "a").isSome = true ∧
    ((FunctionDecl.codegenSetup ⟨"f", [(.i32, "a")], .i32, [], true⟩
      CodeGenContext.init).getValue "a").isSome = true :=
  ⟨rfl, rfl⟩

/-- C2 (amended): every function parameter whose type resolves is
recorded in BOTH scope tables — an entry-block alloca in the alloca
table and the raw argument value in the SSA-value table. -/
theorem c2_param_recorded_in_both_tables (fd : FunctionDecl) (s : CodeGenContext)
    (pty : Ty) (pname : String) (hmem : (pty, pname) ∈ fd.params)
    (hty : ∀ q ∈ fd.params, (s.getLLVMType q.1).isSome = true) :
    ((fd.codegenSetup s).getAlloca pname).isSome = true ∧
    ((fd.codegenSetup s).getValue pname).isSome = true := by
  unfold FunctionDecl.codegenSetup
  dsimp only
  refine paramLoop_records_param fd.params _ pty pname hmem ?_
  intro q hq
  exact getLLVMType_isSome_of_eq_structs (hty q hq) rfl

theorem c2_param_recorded_in_both_tables_witness :
    ((FunctionDecl.codegenSetup ⟨"f", [(.i32, "a")], .i32, [], true⟩
      CodeGenContext.init).getAlloca "a").isSome = true ∧
    ((FunctionDecl.codegenSetup ⟨"f", [(.i32, "a")], .i32, [], true⟩
      CodeGenContext.init).getValue "a").isSome = true :=
  c2_param_recorded_in_both_tables ⟨"f", [(.i32, "a")], .i32, [], true⟩
    CodeGenContext.init .i32 "a" (by decide) (by decide)

/-! ### Claim C3 (corrected) -/

/-- C3 counterexample: the original claim is refuted — for a `while` whose body ends in
`return`, the `end` block still has one predecessor — the conditional
branch of the `cond` block targets it unconditionally of the body's
shape. -/
theorem c3_counterexample_end_has_predecessor :
    (Stmt.codegen (.whileStmt (.boolLiteral true) [.returnStmt (some (.intLiteral 1))])
      (FunctionDecl.codegenSetup ⟨"m", [], .i32, [], true⟩
        CodeGenContext.init)).getTerm 2 = some (.ret (some (.constInt 32 1))) ∧
    predCount (Stmt.codegen (.whileStmt (.boolLiteral true)
      [.returnStmt (some (.intLiteral 1))])
      (FunctionDecl.codegenSetup ⟨"m", [], .i32, [], true⟩ CodeGenContext.init)) 3
      = 1 :=
  ⟨rfl, rfl⟩

/-- C3 (amended): after `WhileStmt::codegen` the `end` block is the
builder's insertion point, and it always has at least one predecessor —
the `cond` block's conditional branch — even when the body ends in a
return. -/
theorem c3_while_end_insertion_point_with_predecessor (cond : Expr)
    (body : List Stmt) (s : CodeGenContext)
    (hC : s.cur < s.nextId) (hWF : ∀ b ∈ s.blocks, b.id < s.nextId)
    (hE : s.entry < s.nextId) :
    (Stmt.codegen (.whileStmt cond body) s).cur = s.nextId + 2 ∧
    1 ≤ predCount (Stmt.codegen (.whileStmt cond body) s) (s.nextId + 2) :=
  let h := whileStmtFacts cond body s hC hWF hE
    (fun t h1 h2 h3 => stmtGenList body t h1 h2 h3)
  ⟨h.2.1, h.2.2⟩

theorem c3_while_end_witness :
    (Stmt.codegen (.whileStmt (.boolLiteral true) [.returnStmt (some (.intLiteral 1))])
      (FunctionDecl.codegenSetup ⟨"m", [], .i32, [], true⟩
        CodeGenContext.init)).cur =
      (FunctionDecl.codegenSetup ⟨"m", [], .i32, [], true⟩
        CodeGenContext.init).nextId + 2 ∧
    1 ≤ predCount (Stmt.codegen (.whileStmt (.boolLiteral true)
      [.returnStmt (some (.intLiteral 1))])
      (FunctionDecl.codegenSetup ⟨"m", [], .i32, [], true⟩ CodeGenContext.init))
      ((FunctionDecl.codegenSetup ⟨"m", [], .i32, [], true⟩
        CodeGenContext.init).nextId + 2) :=
  c3_while_end_insertion_point_with_predecessor (.boolLiteral true)
    [.returnStmt (some (.intLiteral 1))]
    (FunctionDecl.codegenSetup ⟨"m", [], .i32, [], true⟩ CodeGenContext.init)
    (by decide) (by decide) (by decide)

/-! ### Claim C6 -/

/-- C6: for `&&` and `||` the generator first evaluates the left
operand, then always evaluates the right operand from the resulting
state (no short-circuiting), and then emits exactly one bitwise
`and`/`or` instruction on the two values. -/
theorem c6_logical_and_or_no_short_circuit (op : BinOp) (l r : Expr)
    (s s1 s2 : CodeGenContext) (lv rv : Val)
    (hl : Expr.codegen l s = (some lv, s1))
    (hr : Expr.codegen r s1 = (some rv, s2)) :
    (op = .AND → Expr.codegen (.binaryExpr op l r) s
      = s2.emitVal (.andB lv rv) lv.getType) ∧
    (op = .OR → Expr.codegen (.binaryExpr op l r) s
      = s2.emitVal (.orB lv rv) lv.getType) := by
  constructor <;> rintro rfl <;>
    (rw [codegen_binary_eq, hl]
     dsimp only
     rw [hr]
     dsimp only
     rfl)

theorem c6_no_short_circuit_witness :
    Expr.codegen (.binaryExpr .AND (.boolLiteral false) (.callExpr "g" []))
      (FunctionDecl.codegenSetup ⟨"f", [], .void, [], false⟩
        { CodeGenContext.init with funcs := [("g", .int 32)] }) =
      (Expr.codegen (.callExpr "g" [])
        (FunctionDecl.codegenSetup ⟨"f", [], .void, [], false⟩
          { CodeGenContext.init with funcs := [("g", .int 32)] })).2.emitVal
        (.andB (.constInt 1 0) (.reg (.int 32) 0)) (.int 1) ∧
    (Expr.codegen (.binaryExpr .AND (.boolLiteral false) (.callExpr "g" []))
      (FunctionDecl.codegenSetup ⟨"f", [], .void, [], false⟩
        { CodeGenContext.init with funcs := [("g", .int 32)] })).2.blocks.map
      (fun b => b.instrs) =
      [[.instr (.call "g" [] true),
        .instr (.andB (.constInt 1 0) (.reg (.int 32) 0))]] :=
  ⟨(c6_logical_and_or_no_short_circuit .AND (.boolLiteral false) (.callExpr "g" [])
      (FunctionDecl.codegenSetup ⟨"f", [], .void, [], false⟩
        { CodeGenContext.init with funcs := [("g", .int 32)] }) _ _
      (.constInt 1 0) (.reg (.int 32) 0) rfl rfl).1 rfl, rfl⟩

/-! ### Claim C7 -/

/-- C7: the `if` merge block is attached to the function exactly when
the generated code contains at least one branch to it; an `if` without an
`else` body always branches to the merge block (so it is never orphaned);
and whenever no predecessor was created — as when both arms end in a
terminator and an `else` body exists — the merge block is deleted and
absent from the final state. -/
theorem c7_if_merge_attached_iff_predecessor (cond : Expr)
    (thenB elseB : List Stmt) (s : CodeGenContext)
    (hC : s.cur < s.nextId) (hWF : ∀ b ∈ s.blocks, b.id < s.nextId)
    (hE : s.entry < s.nextId) :
    ((∃ b ∈ (Stmt.codegen (.ifStmt cond thenB elseB) s).blocks,
        b.id = s.nextId + 2 ∧ b.attached = true) ↔
      1 ≤ predCount (Stmt.codegen (.ifStmt cond thenB elseB) s) (s.nextId + 2)) ∧
    (elseB = [] →
      1 ≤ predCount (Stmt.codegen (.ifStmt cond thenB elseB) s) (s.nextId + 2)) ∧
    (¬ 1 ≤ predCount (Stmt.codegen (.ifStmt cond thenB elseB) s) (s.nextId + 2) →
      ∀ b ∈ (Stmt.codegen (.ifStmt cond thenB elseB) s).blocks,
        b.id ≠ s.nextId + 2) :=
  (ifStmtFacts cond thenB elseB s hC hWF hE
    (fun t h1 h2 h3 => stmtGenList thenB t h1 h2 h3)
    (fun t h1 h2 h3 => stmtGenList elseB t h1 h2 h3)).2

theorem c7_if_merge_witness :
    ((∃ b ∈ (Stmt.codegen (.ifStmt (.boolLiteral true)
        [.returnStmt (some (.intLiteral 1))] [.returnStmt (some (.intLiteral 2))])
        (FunctionDecl.codegenSetup ⟨"m2", [], .i32, [], true⟩
          CodeGenContext.init)).blocks,
        b.id = (FunctionDecl.codegenSetup ⟨"m2", [], .i32, [], true⟩
          CodeGenContext.init).nextId + 2 ∧ b.attached = true) ↔
      1 ≤ predCount (Stmt.codegen (.ifStmt (.boolLiteral true)
        [.returnStmt (some (.intLiteral 1))] [.returnStmt (some (.intLiteral 2))])
        (FunctionDecl.codegenSetup ⟨"m2", [], .i32, [], true⟩ CodeGenContext.init))
        ((FunctionDecl.codegenSetup ⟨"m2", [], .i32, [], true⟩
          CodeGenContext.init).nextId + 2)) ∧
    (Stmt.codegen (.ifStmt (.boolLiteral true) [.returnStmt (some (.intLiteral 1))]
        [.returnStmt (some (.intLiteral 2))])
      (FunctionDecl.codegenSetup ⟨"m2", [], .i32, [], true⟩
        CodeGenContext.init)).blocks.map (fun b => b.id) = [0, 1, 2] ∧
    (Stmt.codegen (.ifStmt (.boolLiteral true) [.returnStmt (some (.intLiteral 1))] [])
      (FunctionDecl.codegenSetup ⟨"m2", [], .i32, [], true⟩
        CodeGenContext.init)).blocks.map (fun b => (b.id, b.attached)) =
      [(0, true), (1, true), (2, true), (3, true)] :=
  ⟨(c7_if_merge_attached_iff_predecessor (.boolLiteral true)
      [.returnStmt (some (.intLiteral 1))] [.returnStmt (some (.intLiteral 2))]
      (FunctionDecl.codegenSetup ⟨"m2", [], .i32, [], true⟩ CodeGenContext.init)
      (by decide) (by decide) (by decide)).1,
    rfl, rfl⟩

end olang
